import Mathlib

/-!
Verification of the response-parsing, content-cleaning and source-analysis
core of the `recorder-extension` repository (files `code_refactor.py` and
`script_generator.py`).

Strings are modelled as `List Char`.  Python regular-expression scans are
modelled as explicit left-to-right scanners over character lists; where a
scanner is not structurally recursive it takes an explicit fuel argument,
with the public wrapper instantiating fuel to `length + 1`, which is
sufficient because each step consumes at least one character.  The `\w`
character class and Python whitespace are modelled over ASCII.
-/

set_option maxHeartbeats 1000000
set_option maxRecDepth 100000

namespace Recorder

/-- The backtick character, written via its code point. -/
def tick : Char := Char.ofNat 96

/-- Three backticks: the markdown fence marker `re` patterns look for. -/
def ticks : List Char := [tick, tick, tick]

/-- ASCII model of Python's `\w` regex class: letters, digits, underscore. -/
def isWordChar (c : Char) : Bool := c.isAlphanum || c = '_'

/-- ASCII model of Python's `str.strip` whitespace set. -/
def pyWs (c : Char) : Bool :=
  c = ' ' || c = '\t' || c = '\n' || c = '\r' || c = '\x0b' || c = '\x0c'

/-- Python `str.lstrip()`: drop leading whitespace. -/
def lstrip (l : List Char) : List Char := l.dropWhile pyWs

/-- Python `str.rstrip()` / `line.rstrip()`: drop trailing whitespace. -/
def rstrip (l : List Char) : List Char := (l.reverse.dropWhile pyWs).reverse

/-- Python `str.strip()`: drop whitespace at both ends. -/
def strip (l : List Char) : List Char := lstrip (rstrip l)

/-- Python `str.split('\n')`:  `""` yields one empty field. -/
def splitNl : List Char → List (List Char)
  | [] => [[]]
  | c :: rest =>
    if c = '\n' then [] :: splitNl rest
    else
      match splitNl rest with
      | l :: ls => (c :: l) :: ls
      | [] => [[c]]

/-- Python `'\n'.join(...)`. -/
def joinNl : List (List Char) → List Char
  | [] => []
  | [l] => l
  | l :: ls => l ++ '\n' :: joinNl ls

/-- Model of `re.sub(r'```', '', s)`: delete every (non-overlapping,
leftmost-first) occurrence of three backticks. -/
def removeTicks : List Char → List Char
  | [] => []
  | [c] => [c]
  | [c1, c2] => [c1, c2]
  | c1 :: c2 :: c3 :: rest =>
    if c1 = tick ∧ c2 = tick ∧ c3 = tick then removeTicks rest
    else c1 :: removeTicks (c2 :: c3 :: rest)

/-- Trailing step of the fence-marker pattern `\n?`: drop one newline if
it is the next character. -/
def dropOptNl : List Char → List Char
  | '\n' :: r => r
  | s => s

/-- Fuel-driven model of `re.sub(r'```\w*\n?', '', s)` (the first cleanup
pass of `clean_and_validate_code`).  After three backticks the scan
greedily drops word characters and one optional newline, then resumes;
other characters are copied.  A fuel of `length + 1` always suffices. -/
def subFenceOptF : Nat → List Char → List Char
  | 0, s => s
  | _ + 1, [] => []
  | f + 1, c :: rest =>
    if ticks.isPrefixOf (c :: rest) then
      subFenceOptF f (dropOptNl (((c :: rest).drop 3).dropWhile isWordChar))
    else c :: subFenceOptF f rest

/-- `re.sub(r'```\w*\n?', '', s)`. -/
def subFenceOpt (s : List Char) : List Char := subFenceOptF (s.length + 1) s

/-- Fuel-driven model of `re.sub(r'```\w*\n', '', s)` (the first cleanup
pass of `clean_code_content`); here the newline is mandatory, and when it
is absent the scan found no match at this position and advances one
character, exactly like the `re` engine. -/
def subFenceNlF : Nat → List Char → List Char
  | 0, s => s
  | _ + 1, [] => []
  | f + 1, c :: rest =>
    if ticks.isPrefixOf (c :: rest) then
      match ((c :: rest).drop 3).dropWhile isWordChar with
      | '\n' :: r => subFenceNlF f r
      | _ => c :: subFenceNlF f rest
    else c :: subFenceNlF f rest

/-- `re.sub(r'```\w*\n', '', s)`. -/
def subFenceNl (s : List Char) : List Char := subFenceNlF (s.length + 1) s

/-- The blank-line collapsing loop of `clean_and_validate_code`
(lines 265-276 of `code_refactor.py`): a blank line is kept as `''` while
at most 2 consecutive blanks have been seen, a non-blank line is kept
right-stripped.  The counter argument is Python's `blank_count`. -/
def collapseBlank : Nat → List (List Char) → List (List Char)
  | _, [] => []
  | k, l :: ls =>
    if strip l = [] then
      if k + 1 ≤ 2 then [] :: collapseBlank (k + 1) ls
      else collapseBlank (k + 1) ls
    else rstrip l :: collapseBlank 0 ls

/-- The `while cleaned_lines and cleaned_lines[-1] == ''` loop: drop
trailing empty lines. -/
def dropTrailingEmpty (ls : List (List Char)) : List (List Char) :=
  (ls.reverse.dropWhile (fun l => l.isEmpty)).reverse

/-- `clean_and_validate_code` from `code_refactor.py` (the `language`
argument is accepted and ignored, as in the source). -/
def clean_and_validate_code (code : List Char) (_language : List Char) : List Char :=
  joinNl (dropTrailingEmpty (collapseBlank 0 (splitNl (removeTicks (subFenceOpt code)))))

/-- `clean_code_content` from `script_generator.py`: strip fence markers,
right-strip every line, join, and strip the whole text. -/
def clean_code_content (content : List Char) : List Char :=
  strip (joinNl ((splitNl (removeTicks (subFenceNl content))).map rstrip))

/-- Find the first occurrence of three backticks; return the text before
it and the text after it.  Models the search for the closing fence of the
non-greedy patterns `` ```.*?``` `` and `` ```\w*\n(.*?)``` ``. -/
def splitAtTicks : List Char → Option (List Char × List Char)
  | [] => none
  | c :: rest =>
    if ticks.isPrefixOf (c :: rest) then some ([], rest.drop 2)
    else (splitAtTicks rest).map (fun p => (c :: p.1, p.2))

/-- Fuel-driven model of `re.sub(r'```.*?```', '', s, flags=re.DOTALL)`:
delete each region from a fence opener to the next fence, scanning left
to right.  When an opener has no closing fence, no match can start at or
after it, so the remaining text is returned unchanged. -/
def stripFencedBlocksF : Nat → List Char → List Char
  | 0, s => s
  | _ + 1, [] => []
  | f + 1, c :: rest =>
    if ticks.isPrefixOf (c :: rest) then
      match splitAtTicks ((c :: rest).drop 3) with
      | some p => stripFencedBlocksF f p.2
      | none => c :: rest
    else c :: stripFencedBlocksF f rest

/-- `re.sub(r'```.*?```', '', s, flags=re.DOTALL)`. -/
def stripFencedBlocks (s : List Char) : List Char :=
  stripFencedBlocksF (s.length + 1) s

/-- Fuel-driven model of
`re.findall(r'```\w*\n(.*?)```', s, re.DOTALL)`: collect the contents of
all fenced code blocks whose opening fence is followed by word characters
and a newline.  A failed opener advances the scan by one character. -/
def findCodeBlocksF : Nat → List Char → List (List Char)
  | 0, _ => []
  | _ + 1, [] => []
  | f + 1, c :: rest =>
    if ticks.isPrefixOf (c :: rest) then
      match ((c :: rest).drop 3).dropWhile isWordChar with
      | '\n' :: r =>
        match splitAtTicks r with
        | some p => p.1 :: findCodeBlocksF f p.2
        | none => []
      | _ => findCodeBlocksF f rest
    else findCodeBlocksF f rest

/-- `re.findall(r'```\w*\n(.*?)```', s, re.DOTALL)`. -/
def findCodeBlocks (s : List Char) : List (List Char) :=
  findCodeBlocksF (s.length + 1) s

/-- The literal part `=== FILENAME: ` of the file-delimiter pattern. -/
def delimOpen : List Char := ("=== FILENAME: ").data

/-- The literal part ` ===` closing the file-delimiter pattern. -/
def delimClose : List Char := (" ===").data

/-- The non-greedy `(.+?)` of `=== FILENAME: (.+?) ===`: consume at least
one non-newline character, stopping at the first position where ` ===`
follows; fails at a newline or at the end of the text, exactly like the
lazy dot of the `re` engine. -/
def lazyName : List Char → List Char → Option (List Char × List Char)
  | _, [] => none
  | acc, c :: rest =>
    if acc ≠ [] ∧ delimClose.isPrefixOf (c :: rest) then some (acc, rest.drop 3)
    else if c = '\n' then none
    else lazyName (acc ++ [c]) rest

/-- Find the leftmost match of `=== FILENAME: (.+?) ===`, returning the
text before the match, the captured name and the text after the match. -/
def findDelim : List Char → Option (List Char × List Char × List Char)
  | [] => none
  | c :: rest =>
    if delimOpen.isPrefixOf (c :: rest) then
      match lazyName [] ((c :: rest).drop 14) with
      | some p => some ([], p.1, p.2)
      | none => (findDelim rest).map (fun q => (c :: q.1, q.2.1, q.2.2))
    else (findDelim rest).map (fun q => (c :: q.1, q.2.1, q.2.2))

/-- Fuel-driven model of
`re.split(r"=== FILENAME: (.+?) ===", response)`: the leading text
before the first delimiter, and the (name, following-segment) pairs in
match order.  `re.split` with one capture group always produces an odd
number of parts, so each matched name has a (possibly empty) segment. -/
def splitDelimsF : Nat → List Char → List Char × List (List Char × List Char)
  | 0, s => (s, [])
  | f + 1, s =>
    match findDelim s with
    | none => (s, [])
    | some q =>
      let t := splitDelimsF f q.2.2
      (q.1, (q.2.1, t.1) :: t.2)

/-- `re.split(r"=== FILENAME: (.+?) ===", response)` as leading text plus
(name, segment) pairs. -/
def splitDelims (s : List Char) : List Char × List (List Char × List Char) :=
  splitDelimsF (s.length + 1) s

/-- The number of well-formed `=== FILENAME: <name> ===` delimiter
occurrences in a response, i.e. the number of regex matches that
`re.findall(file_pattern, response)` reports. -/
def numDelims (s : List Char) : Nat := (splitDelims s).2.length

/-- The `"type"` field of a parsed file record. -/
inductive FileKind where
  | documentation
  | code
deriving DecidableEq, Repr

/-- One record of the parsers' output: the dict
`{"filename": ..., "content": ..., "type": ...}`. -/
structure FileRecord where
  filename : List Char
  content : List Char
  type : FileKind
deriving DecidableEq, Repr

/-- File extension selection `"py" if language == "python" else "ts"`. -/
def ext (language : List Char) : List Char :=
  if language = ("python").data then ("py").data else ("ts").data

/-- `extract_explanation` from `code_refactor.py`: strip all fenced
blocks, trim, and return the text under a heading only when its length
exceeds 50 characters. -/
def extract_explanation (text : List Char) : List Char :=
  let explanation := strip (stripFencedBlocks text)
  if 50 < explanation.length then ("# Refactoring Notes\n\n").data ++ explanation
  else []

/-- `max(code_blocks, key=len)` over a nonempty list: Python's `max`
keeps the first element among ties, so a later element replaces the
current best only when strictly longer. -/
def pickMax : List Char → List (List Char) → List Char
  | best, [] => best
  | best, x :: xs => pickMax (if best.length < x.length then x else best) xs

/-- `separate_explanation_and_code` from `code_refactor.py`: with fenced
blocks present, the longest (first on ties) block, stripped, is the code
and the fence-stripped stripped remainder is the explanation; with no
block the whole stripped response is the code. -/
def separate_explanation_and_code (response : List Char) : List Char × List Char :=
  match findCodeBlocks response with
  | [] => ([], strip response)
  | b :: bs => (strip (stripFencedBlocks response), strip (pickMax b bs))

/-- `parse_refactored_response` from `code_refactor.py`. -/
def parse_refactored_response (response language : List Char) : List FileRecord :=
  let parts := splitDelims response
  if parts.2 ≠ [] then
    (if strip parts.1 ≠ [] then
      (if extract_explanation parts.1 ≠ [] then
        [⟨("REFACTORING_NOTES.md").data, extract_explanation parts.1, FileKind.documentation⟩]
      else [])
    else []) ++
    parts.2.map (fun p =>
      ⟨strip p.1, clean_and_validate_code (strip p.2) language, FileKind.code⟩)
  else
    let ec := separate_explanation_and_code response
    (if ec.1 ≠ [] then
      [⟨("REFACTORING_NOTES.md").data, ec.1, FileKind.documentation⟩]
    else []) ++
    (if ec.2 ≠ [] then
      [⟨("refactored_code.").data ++ ext language,
        clean_and_validate_code ec.2 language, FileKind.code⟩]
    else [])

/-- `parse_multi_file_response` from `script_generator.py`. -/
def parse_multi_file_response (response language : List Char) : List FileRecord :=
  let parts := splitDelims response
  if parts.2 ≠ [] then
    (if strip parts.1 ≠ [] then
      [⟨("README.md").data, strip parts.1, FileKind.documentation⟩]
    else []) ++
    parts.2.map (fun p => ⟨strip p.1, clean_code_content (strip p.2), FileKind.code⟩)
  else
    [⟨("generated_script.").data ++ ext language, clean_code_content response, FileKind.code⟩]

/-- The abstract syntax nodes that the `ast.walk` loop of
`analyze_code_structure` inspects.  `ast.parse` is an external library
call; its output is modelled by this node list and the parse itself by an
arbitrary total function into `Option (List PyNode)` (a `none` result
models a raised `SyntaxError`, the only failure the source handles). -/
inductive PyNode where
  | imp (names : List (List Char))
  | impFrom (module : Option (List Char)) (names : List (List Char))
  | funcDef (name : List Char)
  | classDef (name : List Char)
  | other
deriving DecidableEq, Repr

/-- The `analysis` dict built by `analyze_code_structure`. -/
structure Analysis where
  language : List Char
  lines_of_code : Nat
  complexity_indicators : List (List Char)
  imports : List (List Char)
  functions : List (List Char)
  classes : List (List Char)
deriving DecidableEq, Repr

/-- Python `', '.join(...)`. -/
def joinCommaSpace (ls : List (List Char)) : List Char :=
  List.intercalate ((", ").data) ls

/-- One step of the `ast.walk` loop: extend the (imports, functions,
classes) accumulator according to the node, as in lines 37-47 of
`code_refactor.py`. -/
def collectNode (acc : List (List Char) × List (List Char) × List (List Char))
    (n : PyNode) : List (List Char) × List (List Char) × List (List Char) :=
  match n with
  | .imp names => (acc.1 ++ names, acc.2.1, acc.2.2)
  | .impFrom none _ => acc
  | .impFrom (some m) names => (acc.1 ++ [m ++ '.' :: joinCommaSpace names], acc.2.1, acc.2.2)
  | .funcDef nm => (acc.1, acc.2.1 ++ [nm], acc.2.2)
  | .classDef nm => (acc.1, acc.2.1, acc.2.2 ++ [nm])
  | .other => acc

/-- The whole `ast.walk` loop over the node sequence. -/
def collectNodes (ns : List PyNode) :
    List (List Char) × List (List Char) × List (List Char) :=
  ns.foldl collectNode ([], [], [])

/-- `analyze_code_structure` from `code_refactor.py`.  `pyParse` models
the external `ast.parse` (a `none` models a `SyntaxError`), `longFn`
models the very-long-function regex heuristic of line 64 (a pure Boolean
test on the source text); the theorems below hold for every choice of
both. -/
def analyze_code_structure (pyParse : List Char → Option (List PyNode))
    (longFn : List Char → Bool) (code language : List Char) : Analysis :=
  let lines := (splitNl code).length
  let base :
      (List (List Char) × List (List Char) × List (List Char)) × List (List Char) :=
    if language = ("python").data then
      match pyParse code with
      | some ns => (collectNodes ns, [])
      | none => (([], [], []), [("Syntax errors present").data])
    else (([], [], []), [])
  { language := language
    lines_of_code := lines
    imports := base.1.1
    functions := base.1.2.1
    classes := base.1.2.2
    complexity_indicators :=
      base.2 ++
      (if 500 < lines then [("Large file (>500 lines)").data] else []) ++
      (if 20 < base.1.2.1.length then [("Many functions (>20)").data] else []) ++
      (if 10 < base.1.2.2.length then [("Many classes (>10)").data] else []) ++
      (if ("TODO").data <:+: code ∨ ("FIXME").data <:+: code then
        [("Contains TODO/FIXME comments").data] else []) ++
      (if ("except:").data <:+: code then
        [("Bare except clauses found").data] else []) ++
      (if longFn code then [("Very long functions detected").data] else []) }

/-- The persisted filesystem, as a path-to-content association list
(later writes shadow earlier ones). -/
abbrev World := List (List Char × List Char)

/-- The result dict returned by the public operations.  The `success`
field distinguishes the success/failure result values; fields that a
given operation does not set keep their defaults.  (The `timestamp` and
`original_analysis` entries of the source dicts carry no behaviour the
claims mention and are omitted.) -/
structure RefResult where
  success : Bool
  error : Option (List Char) := none
  files : List FileRecord := []
  raw_response : Option (List Char) := none
  saved_files : Option (List (List Char)) := none
deriving DecidableEq, Repr

/-- `refactor_code` from `code_refactor.py`.  The external completion
call is the oracle `genText` (an `Except.error` models a raised
exception); prompt construction is pure string formatting and is
abstracted as `promptOf`.  The body's `try` catches every exception, so
the function always returns a plain result value. -/
def refactor_code (pyParse : List Char → Option (List PyNode))
    (longFn : List Char → Bool)
    (promptOf : Analysis → List Char → List Char → List Char)
    (genText : List Char → Except (List Char) (List Char))
    (code language filename : List Char) : RefResult :=
  let analysis := analyze_code_structure pyParse longFn code language
  match genText (promptOf analysis code filename) with
  | .ok text =>
    { success := true, files := parse_refactored_response text language,
      raw_response := some text }
  | .error e => { success := false, error := some e }

/-- The basename of a path (the part after the last `/`). -/
def basenameOf (p : List Char) : List Char :=
  (p.reverse.takeWhile (fun c => c ≠ '/')).reverse

/-- Model of `pathlib.Path(p).suffix`: the extension from the last dot of
the basename, empty when the dot is absent, leading or trailing. -/
def pathSuffix (p : List Char) : List Char :=
  let b := basenameOf p
  let after := (b.reverse.takeWhile (fun c => c ≠ '.')).reverse
  if after.length < b.length ∧ after ≠ [] ∧ after.length + 1 < b.length then
    '.' :: after
  else []

/-- `refactor_file` from `code_refactor.py`: existence check, extension
dispatch and file read each produce a failure result value; the file
system is the oracle pair `existsF`/`readF` (a `readF` error models the
exception caught by the `try` around `open`). -/
def refactor_file (pyParse : List Char → Option (List PyNode))
    (longFn : List Char → Bool)
    (promptOf : Analysis → List Char → List Char → List Char)
    (genText : List Char → Except (List Char) (List Char))
    (existsF : List Char → Bool)
    (readF : List Char → Except (List Char) (List Char))
    (path : List Char) (language : Option (List Char)) : RefResult :=
  if existsF path = false then
    { success := false, error := some ((("File not found: ").data) ++ path) }
  else
    let lang? : Except (List Char) (List Char) :=
      match language with
      | some l => .ok l
      | none =>
        if pathSuffix path = (".py").data then .ok (("python").data)
        else if pathSuffix path = (".ts").data ∨ pathSuffix path = (".js").data then
          .ok (("typescript").data)
        else .error ((("Unsupported file type: ").data) ++ pathSuffix path)
    match lang? with
    | .error e => { success := false, error := some e }
    | .ok lang =>
      match readF path with
      | .error e => { success := false, error := some ((("Error reading file: ").data) ++ e) }
      | .ok code => refactor_code pyParse longFn promptOf genText code lang (basenameOf path)

/-- The path `output_dir / project_name / filename` a record is written
to. -/
def savePath (outDir projName fname : List Char) : List Char :=
  outDir ++ '/' :: projName ++ '/' :: fname

/-- The write loop shared by `save_refactored_files` and `save_files`.
`failW` is the filesystem oracle: `some e` means the `open`/`write` of
that path raises exception `e`.  The loop has no exception handler, so a
failing write returns `Except.error` (the exception crosses the function
boundary) with the writes made so far still applied to the world. -/
def saveFilesGo (failW : List Char → Option (List Char)) (outDir projName : List Char) :
    List FileRecord → World → World × Except (List Char) (List (List Char))
  | [], w => (w, .ok [])
  | fi :: rest, w =>
    let p := savePath outDir projName fi.filename
    match failW p with
    | some e => (w, .error e)
    | none =>
      match saveFilesGo failW outDir projName rest ((p, fi.content) :: w) with
      | (w', .ok paths) => (w', .ok (p :: paths))
      | (w', .error e) => (w', .error e)

/-- `save_refactored_files` from `code_refactor.py` (its `output_dir` is
the constant `"refactored_code"`; the timestamped default project name is
passed in by the caller). -/
def save_refactored_files (failW : List Char → Option (List Char))
    (projName : List Char) (files : List FileRecord) (w : World) :
    World × Except (List Char) (List (List Char)) :=
  saveFilesGo failW (("refactored_code").data) projName files w

/-- `save_files` from `script_generator.py` (identical loop, `output_dir
= "generated_scripts"`). -/
def save_files (failW : List Char → Option (List Char))
    (projName : List Char) (files : List FileRecord) (w : World) :
    World × Except (List Char) (List (List Char)) :=
  saveFilesGo failW (("generated_scripts").data) projName files w

/-- `refactor_and_save` from `code_refactor.py`: refactor, and on success
run the unguarded save loop, whose exception (if any) crosses this
function's boundary as well. -/
def refactor_and_save (pyParse : List Char → Option (List PyNode))
    (longFn : List Char → Bool)
    (promptOf : Analysis → List Char → List Char → List Char)
    (genText : List Char → Except (List Char) (List Char))
    (failW : List Char → Option (List Char))
    (code language filename projName : List Char) (w : World) :
    World × Except (List Char) RefResult :=
  let r := refactor_code pyParse longFn promptOf genText code language filename
  if r.success then
    match save_refactored_files failW projName r.files w with
    | (w', .ok paths) => (w', .ok { r with saved_files := some paths })
    | (w', .error e) => (w', .error e)
  else (w, .ok r)

/-- `generate_script` from `script_generator.py`; `promptFull` abstracts
the pure system-prompt selection and concatenation over (language,
task_type, prompt). -/
def generate_script (promptFull : List Char → List Char → List Char → List Char)
    (genText : List Char → Except (List Char) (List Char))
    (prompt language task_type : List Char) : RefResult :=
  match genText (promptFull language task_type prompt) with
  | .ok text =>
    { success := true, files := parse_multi_file_response text language,
      raw_response := some text }
  | .error e => { success := false, error := some e }

/-- `generate_and_save` from `script_generator.py`. -/
def generate_and_save (promptFull : List Char → List Char → List Char → List Char)
    (genText : List Char → Except (List Char) (List Char))
    (failW : List Char → Option (List Char))
    (prompt language task_type projName : List Char) (w : World) :
    World × Except (List Char) RefResult :=
  let r := generate_script promptFull genText prompt language task_type
  if r.success then
    match save_files failW projName r.files w with
    | (w', .ok paths) => (w', .ok { r with saved_files := some paths })
    | (w', .error e) => (w', .error e)
  else (w, .ok r)

/-! ## Basic facts about stripping and the fence scanners -/

theorem sublist_of_splitAtTicks :
    ∀ {s : List Char} {p}, splitAtTicks s = some p → p.2.Sublist s := by
  intro s
  induction s with
  | nil => intro p hp; simp [splitAtTicks] at hp
  | cons c rest ih =>
    intro p hp
    rw [splitAtTicks] at hp
    by_cases hx : ticks.isPrefixOf (c :: rest) = true
    · rw [if_pos hx] at hp
      cases hp
      exact ((rest.drop_sublist 2).trans (List.sublist_cons_self c rest))
    · rw [if_neg hx] at hp
      rcases Option.map_eq_some'.mp hp with ⟨q, hq, hpq⟩
      have := ih hq
      rw [← hpq]
      exact this.trans (List.sublist_cons_self c rest)

theorem sublist_stripFencedBlocksF :
    ∀ (f : Nat) (s : List Char), (stripFencedBlocksF f s).Sublist s := by
  intro f
  induction f with
  | zero => intro s; exact List.Sublist.refl s
  | succ f ih =>
    intro s
    cases s with
    | nil => simp [stripFencedBlocksF]
    | cons c rest =>
      rw [stripFencedBlocksF]
      by_cases hx : ticks.isPrefixOf (c :: rest) = true
      · rw [if_pos hx]
        cases hq : splitAtTicks ((c :: rest).drop 3) with
        | none => exact List.Sublist.refl _
        | some p =>
          exact (ih p.2).trans ((sublist_of_splitAtTicks hq).trans
            (List.drop_sublist 3 (c :: rest)))
      · rw [if_neg hx]
        exact (ih rest).cons₂ c

theorem sublist_stripFencedBlocks (s : List Char) :
    (stripFencedBlocks s).Sublist s :=
  sublist_stripFencedBlocksF (s.length + 1) s

theorem strip_eq_nil_iff {l : List Char} : strip l = [] ↔ ∀ c ∈ l, pyWs c := by
  constructor
  · intro h c hc
    have h1 : ∀ c ∈ rstrip l, pyWs c := by
      intro d hd
      have : lstrip (rstrip l) = [] := h
      exact List.dropWhile_eq_nil_iff.mp this d hd
    have hsplit := List.takeWhile_append_dropWhile pyWs l.reverse
    have hc' : c ∈ l.reverse := List.mem_reverse.mpr hc
    rw [← hsplit] at hc'
    rcases List.mem_append.mp hc' with h2 | h2
    · exact List.mem_takeWhile_imp h2
    · apply h1
      unfold rstrip
      exact List.mem_reverse.mpr h2
  · intro h
    have h1 : rstrip l = [] := by
      unfold rstrip
      rw [List.dropWhile_eq_nil_iff.mpr (fun c hc => h c (List.mem_reverse.mp hc))]
      rfl
    unfold strip
    rw [h1]
    rfl

theorem strip_ne_nil_of_sub {z l : List Char} (hsub : z.Sublist l)
    (h : strip z ≠ []) : strip l ≠ [] := by
  intro hl
  apply h
  rw [strip_eq_nil_iff] at hl ⊢
  exact fun c hc => hl c (hsub.subset hc)

/-! ## Claim theorems for the response parsers (C1, C2, C3, C5, C10) -/

/-- Claim C1: with at least one well-formed `=== FILENAME: <name> ===`
delimiter present, both parsers return exactly one `code` record per
delimiter match, in match order, preceded by at most one `documentation`
record. -/
theorem multi_file_code_records (response language : List Char)
    (h : (splitDelims response).2 ≠ []) :
    (∃ docs : List FileRecord, parse_refactored_response response language =
        docs ++ (splitDelims response).2.map (fun p =>
          ⟨strip p.1, clean_and_validate_code (strip p.2) language, FileKind.code⟩) ∧
      docs.length ≤ 1 ∧ ∀ r ∈ docs, r.type = FileKind.documentation) ∧
    (∃ docs : List FileRecord, parse_multi_file_response response language =
        docs ++ (splitDelims response).2.map (fun p =>
          ⟨strip p.1, clean_code_content (strip p.2), FileKind.code⟩) ∧
      docs.length ≤ 1 ∧ ∀ r ∈ docs, r.type = FileKind.documentation) ∧
    (parse_refactored_response response language).filter
        (fun r => decide (r.type = FileKind.code)) =
      (splitDelims response).2.map (fun p =>
        ⟨strip p.1, clean_and_validate_code (strip p.2) language, FileKind.code⟩) ∧
    (parse_multi_file_response response language).filter
        (fun r => decide (r.type = FileKind.code)) =
      (splitDelims response).2.map (fun p =>
        ⟨strip p.1, clean_code_content (strip p.2), FileKind.code⟩) := by
  have eR : parse_refactored_response response language =
      (if strip (splitDelims response).1 ≠ [] then
        (if extract_explanation (splitDelims response).1 ≠ [] then
          [⟨("REFACTORING_NOTES.md").data,
            extract_explanation (splitDelims response).1, FileKind.documentation⟩]
        else [])
      else []) ++
      (splitDelims response).2.map (fun p =>
        ⟨strip p.1, clean_and_validate_code (strip p.2) language, FileKind.code⟩) := by
    rw [parse_refactored_response, if_pos h]
  have eG : parse_multi_file_response response language =
      (if strip (splitDelims response).1 ≠ [] then
        [⟨("README.md").data, strip (splitDelims response).1, FileKind.documentation⟩]
      else []) ++
      (splitDelims response).2.map (fun p =>
        ⟨strip p.1, clean_code_content (strip p.2), FileKind.code⟩) := by
    rw [parse_multi_file_response, if_pos h]
  refine ⟨⟨_, eR, ?_, ?_⟩, ⟨_, eG, ?_, ?_⟩, ?_, ?_⟩
  · split_ifs <;> simp
  · split_ifs <;> intro r hr <;> simp at hr <;> simp [hr]
  · split_ifs <;> simp
  · split_ifs <;> intro r hr <;> simp at hr <;> simp [hr]
  · rw [eR, List.filter_append]
    have h1 : List.filter (fun r : FileRecord => decide (r.type = FileKind.code))
        (if strip (splitDelims response).1 ≠ [] then
          (if extract_explanation (splitDelims response).1 ≠ [] then
            [⟨("REFACTORING_NOTES.md").data,
              extract_explanation (splitDelims response).1, FileKind.documentation⟩]
          else [])
        else []) = [] := by
      split_ifs <;> simp
    rw [h1, List.nil_append, List.filter_eq_self.mpr]
    intro r hr
    rcases List.mem_map.mp hr with ⟨p, _, hp⟩
    simp [← hp]
  · rw [eG, List.filter_append]
    have h1 : List.filter (fun r : FileRecord => decide (r.type = FileKind.code))
        (if strip (splitDelims response).1 ≠ [] then
          [⟨("README.md").data, strip (splitDelims response).1, FileKind.documentation⟩]
        else []) = [] := by
      split_ifs <;> simp
    rw [h1, List.nil_append, List.filter_eq_self.mpr]
    intro r hr
    rcases List.mem_map.mp hr with ⟨p, _, hp⟩
    simp [← hp]

/-- Witness for C1 at a concrete two-delimiter response. -/
theorem multi_file_code_records_witness :
    (splitDelims (("intro\n=== FILENAME: a.py ===\nprint(1)\n=== FILENAME: b.py ===\nprint(2)\n").data)).2 ≠ [] ∧
    ((∃ docs : List FileRecord, parse_refactored_response
        (("intro\n=== FILENAME: a.py ===\nprint(1)\n=== FILENAME: b.py ===\nprint(2)\n").data)
        (("python").data) =
        docs ++ (splitDelims (("intro\n=== FILENAME: a.py ===\nprint(1)\n=== FILENAME: b.py ===\nprint(2)\n").data)).2.map (fun p =>
          ⟨strip p.1, clean_and_validate_code (strip p.2) (("python").data), FileKind.code⟩) ∧
      docs.length ≤ 1 ∧ ∀ r ∈ docs, r.type = FileKind.documentation) ∧
    (∃ docs : List FileRecord, parse_multi_file_response
        (("intro\n=== FILENAME: a.py ===\nprint(1)\n=== FILENAME: b.py ===\nprint(2)\n").data)
        (("python").data) =
        docs ++ (splitDelims (("intro\n=== FILENAME: a.py ===\nprint(1)\n=== FILENAME: b.py ===\nprint(2)\n").data)).2.map (fun p =>
          ⟨strip p.1, clean_code_content (strip p.2), FileKind.code⟩) ∧
      docs.length ≤ 1 ∧ ∀ r ∈ docs, r.type = FileKind.documentation) ∧
    (parse_refactored_response
        (("intro\n=== FILENAME: a.py ===\nprint(1)\n=== FILENAME: b.py ===\nprint(2)\n").data)
        (("python").data)).filter (fun r => decide (r.type = FileKind.code)) =
      (splitDelims (("intro\n=== FILENAME: a.py ===\nprint(1)\n=== FILENAME: b.py ===\nprint(2)\n").data)).2.map (fun p =>
        ⟨strip p.1, clean_and_validate_code (strip p.2) (("python").data), FileKind.code⟩) ∧
    (parse_multi_file_response
        (("intro\n=== FILENAME: a.py ===\nprint(1)\n=== FILENAME: b.py ===\nprint(2)\n").data)
        (("python").data)).filter (fun r => decide (r.type = FileKind.code)) =
      (splitDelims (("intro\n=== FILENAME: a.py ===\nprint(1)\n=== FILENAME: b.py ===\nprint(2)\n").data)).2.map (fun p =>
        ⟨strip p.1, clean_code_content (strip p.2), FileKind.code⟩)) :=
  ⟨by decide, multi_file_code_records _ _ (by decide)⟩

/-- Counterexample to claim C2 as stated: a response that is exactly one
dangling `=== FILENAME: a.py ===` delimiter with nothing after it.  Both
parsers DO emit a record for that filename (with empty content); the
guard `i + 1 < len(parts)` in the source never fails because `re.split`
with one capture group always returns an odd number of parts. -/
theorem dangling_name_emits_record :
    parse_refactored_response (("=== FILENAME: a.py ===").data) (("python").data) =
      [⟨("a.py").data, [], FileKind.code⟩] ∧
    parse_multi_file_response (("=== FILENAME: a.py ===").data) (("python").data) =
      [⟨("a.py").data, [], FileKind.code⟩] := by
  decide

/-- Claim C2 (amended): a final delimiter followed by an empty content
segment yields, as the last record of either parser's output, a `code`
record for that filename whose content is empty; nothing is raised (the
parsers are total functions). -/
theorem dangling_name_last_record (response language nm : List Char)
    (h : ((splitDelims response).2).getLast? = some (nm, [])) :
    (parse_refactored_response response language).getLast? =
      some ⟨strip nm, [], FileKind.code⟩ ∧
    (parse_multi_file_response response language).getLast? =
      some ⟨strip nm, [], FileKind.code⟩ := by
  have hne : (splitDelims response).2 ≠ [] := by
    intro hnil
    rw [hnil] at h
    simp at h
  have hclean : clean_and_validate_code (strip ([] : List Char)) language = [] := rfl
  have hclean2 : clean_code_content (strip ([] : List Char)) = [] := rfl
  constructor
  · rw [parse_refactored_response, if_pos hne, List.getLast?_append, List.getLast?_map, h]
    simp [hclean]
  · rw [parse_multi_file_response, if_pos hne, List.getLast?_append, List.getLast?_map, h]
    simp [hclean2]

/-- Witness for the amended C2 at a concrete response ending in a
dangling delimiter. -/
theorem dangling_name_last_record_witness :
    ((splitDelims (("text\n=== FILENAME: x.py ===\ncode\n=== FILENAME: y.py ===").data)).2).getLast? =
      some ((("y.py").data), []) ∧
    ((parse_refactored_response (("text\n=== FILENAME: x.py ===\ncode\n=== FILENAME: y.py ===").data) (("python").data)).getLast? =
      some ⟨strip (("y.py").data), [], FileKind.code⟩ ∧
    (parse_multi_file_response (("text\n=== FILENAME: x.py ===\ncode\n=== FILENAME: y.py ===").data) (("python").data)).getLast? =
      some ⟨strip (("y.py").data), [], FileKind.code⟩) :=
  ⟨by decide, dangling_name_last_record _ _ _ (by decide)⟩

/-- Counterexample to claim C3 as stated: the empty response has zero
delimiter occurrences and the refactor-mode parser returns the EMPTY
record list; and a delimiter-free response whose only fenced block is
whitespace-only but whose explanation is long returns exactly one record
of kind `documentation` (not `code`). -/
theorem no_delims_not_one_or_two :
    numDelims [] = 0 ∧
    parse_refactored_response [] (("python").data) = [] ∧
    numDelims (("```py\n \n```EEEEEEEEEEEEEEEEEEEEEEEEEEEEEEEEEEEEEEEEEEEEEEEEEEE").data) = 0 ∧
    parse_refactored_response
        (("```py\n \n```EEEEEEEEEEEEEEEEEEEEEEEEEEEEEEEEEEEEEEEEEEEEEEEEEEE").data)
        (("python").data) =
      [⟨("REFACTORING_NOTES.md").data,
        ("EEEEEEEEEEEEEEEEEEEEEEEEEEEEEEEEEEEEEEEEEEEEEEEEEEE").data,
        FileKind.documentation⟩] := by
  decide

/-- Shared fact: with no delimiter pair the generation-mode parser takes
its single-file path. -/
theorem gen_parse_no_delims (response language : List Char)
    (h : (splitDelims response).2 = []) :
    parse_multi_file_response response language =
      [⟨("generated_script.").data ++ ext language, clean_code_content response,
        FileKind.code⟩] := by
  rw [parse_multi_file_response, if_neg (fun hk => hk h)]

/-- Claim C3 (amended): with zero delimiter occurrences the refactor-mode
parser returns at most two records — an optional `documentation` record
followed by an optional `code` record (possibly neither) — and the
generation-mode parser returns exactly one `code` record. -/
theorem no_delims_record_bound (response language : List Char)
    (h : numDelims response = 0) :
    (∃ d c : List FileRecord, parse_refactored_response response language = d ++ c ∧
      d.length ≤ 1 ∧ c.length ≤ 1 ∧
      (∀ r ∈ d, r.type = FileKind.documentation) ∧
      (∀ r ∈ c, r.type = FileKind.code)) ∧
    parse_multi_file_response response language =
      [⟨("generated_script.").data ++ ext language, clean_code_content response,
        FileKind.code⟩] := by
  have hnil : (splitDelims response).2 = [] := List.length_eq_zero.mp h
  have hnn : ¬ (splitDelims response).2 ≠ [] := fun hk => hk hnil
  constructor
  · rw [parse_refactored_response, if_neg hnn]
    refine ⟨_, _, rfl, ?_, ?_, ?_, ?_⟩
    · split_ifs <;> simp
    · split_ifs <;> simp
    · split_ifs <;> intro r hr <;> simp at hr <;> simp [hr]
    · split_ifs <;> intro r hr <;> simp at hr <;> simp [hr]
  · exact gen_parse_no_delims response language hnil

/-- Witness for the amended C3 at a concrete delimiter-free response. -/
theorem no_delims_record_bound_witness :
    numDelims (("hello world").data) = 0 ∧
    ((∃ d c : List FileRecord,
      parse_refactored_response (("hello world").data) (("python").data) = d ++ c ∧
      d.length ≤ 1 ∧ c.length ≤ 1 ∧
      (∀ r ∈ d, r.type = FileKind.documentation) ∧
      (∀ r ∈ c, r.type = FileKind.code)) ∧
    parse_multi_file_response (("hello world").data) (("python").data) =
      [⟨("generated_script.").data ++ ext (("python").data),
        clean_code_content (("hello world").data), FileKind.code⟩]) :=
  ⟨by decide, no_delims_record_bound _ _ (by decide)⟩

/-- Claim C10: the generation-mode parser always returns at least one
record, and with zero delimiters it returns exactly one `code` record
named `generated_script.py` / `generated_script.ts` whose content is the
cleaned whole response. -/
theorem gen_parser_never_empty (response language : List Char) :
    1 ≤ (parse_multi_file_response response language).length ∧
    (numDelims response = 0 →
      parse_multi_file_response response language =
        [⟨("generated_script.").data ++ ext language, clean_code_content response,
          FileKind.code⟩]) := by
  constructor
  · by_cases h : (splitDelims response).2 ≠ []
    · rw [parse_multi_file_response, if_pos h]
      have h2 : 1 ≤ (splitDelims response).2.length := by
        cases hx : (splitDelims response).2 with
        | nil => exact absurd hx h
        | cons a t => simp
      calc 1 ≤ (splitDelims response).2.length := h2
        _ = ((splitDelims response).2.map (fun p =>
              ⟨strip p.1, clean_code_content (strip p.2), FileKind.code⟩ : _ → FileRecord)).length := by
            rw [List.length_map]
        _ ≤ _ := by rw [List.length_append]; omega
    · rw [parse_multi_file_response, if_neg h]
      simp
  · intro h
    exact gen_parse_no_delims response language (List.length_eq_zero.mp h)

/-- Witness for C10: the empty response, with the zero-delimiter premise
discharged concretely. -/
theorem gen_parser_never_empty_witness :
    1 ≤ (parse_multi_file_response [] (("python").data)).length ∧
    parse_multi_file_response [] (("python").data) =
      [⟨("generated_script.").data ++ ext (("python").data),
        clean_code_content [], FileKind.code⟩] :=
  ⟨(gen_parser_never_empty [] (("python").data)).1,
   (gen_parser_never_empty [] (("python").data)).2 (by decide)⟩

/-- Counterexample to claim C5 as stated: in generation mode the leading
segment `"hi"` (2 non-whitespace characters, far below 50) still
produces a `README.md` documentation record, because
`parse_multi_file_response` emits one for ANY nonempty stripped leading
segment, with no 50-character threshold and no fence stripping. -/
theorem doc_record_below_threshold :
    parse_multi_file_response (("hi\n=== FILENAME: a.py ===\nx").data) (("python").data) =
      [⟨("README.md").data, ("hi").data, FileKind.documentation⟩,
       ⟨("a.py").data, ("x").data, FileKind.code⟩] ∧
    ((stripFencedBlocks (splitDelims (("hi\n=== FILENAME: a.py ===\nx").data)).1).filter
        (fun c => !pyWs c)).length ≤ 50 := by
  decide

/-- Claim C5 (amended): in the multi-file path, refactor mode emits a
`REFACTORING_NOTES.md` documentation record if and only if the leading
segment — fence-stripped and trimmed — has total length greater than 50
(all characters counted, not only non-whitespace ones), wrapping the
content under a `# Refactoring Notes` heading; generation mode emits a
`README.md` record if and only if the stripped leading segment is
nonempty, with no threshold, no fence stripping and no heading. -/
theorem doc_record_condition (response language : List Char)
    (h : (splitDelims response).2 ≠ []) :
    parse_refactored_response response language =
      (if 50 < (strip (stripFencedBlocks (splitDelims response).1)).length then
        [⟨("REFACTORING_NOTES.md").data,
          ("# Refactoring Notes\n\n").data ++
            strip (stripFencedBlocks (splitDelims response).1),
          FileKind.documentation⟩]
      else []) ++
      (splitDelims response).2.map (fun p =>
        ⟨strip p.1, clean_and_validate_code (strip p.2) language, FileKind.code⟩) ∧
    parse_multi_file_response response language =
      (if strip (splitDelims response).1 ≠ [] then
        [⟨("README.md").data, strip (splitDelims response).1, FileKind.documentation⟩]
      else []) ++
      (splitDelims response).2.map (fun p =>
        ⟨strip p.1, clean_code_content (strip p.2), FileKind.code⟩) := by
  constructor
  · rw [parse_refactored_response, if_pos h]
    have hx : extract_explanation (splitDelims response).1 =
        if 50 < (strip (stripFencedBlocks (splitDelims response).1)).length then
          ("# Refactoring Notes\n\n").data ++
            strip (stripFencedBlocks (splitDelims response).1)
        else [] := by
      simp only [extract_explanation]
    by_cases h50 : 50 < (strip (stripFencedBlocks (splitDelims response).1)).length
    · have he : strip (stripFencedBlocks (splitDelims response).1) ≠ [] := by
        intro h0
        rw [h0] at h50
        simp at h50
      have hlead : strip (splitDelims response).1 ≠ [] :=
        strip_ne_nil_of_sub (sublist_stripFencedBlocks (splitDelims response).1) he
      rw [hx, if_pos h50, if_pos h50, if_pos hlead, if_pos (by simp)]
    · rw [hx, if_neg h50, if_neg h50]
      split_ifs <;> simp_all
  · rw [parse_multi_file_response, if_pos h]

/-- Witness for the amended C5 at a concrete response whose leading
segment passes the refactor-mode threshold. -/
theorem doc_record_condition_witness :
    (splitDelims (("This explanation segment is certainly longer than fifty characters.\n=== FILENAME: m.py ===\npass").data)).2 ≠ [] ∧
    (parse_refactored_response (("This explanation segment is certainly longer than fifty characters.\n=== FILENAME: m.py ===\npass").data) (("python").data) =
      (if 50 < (strip (stripFencedBlocks (splitDelims (("This explanation segment is certainly longer than fifty characters.\n=== FILENAME: m.py ===\npass").data)).1)).length then
        [⟨("REFACTORING_NOTES.md").data,
          ("# Refactoring Notes\n\n").data ++
            strip (stripFencedBlocks (splitDelims (("This explanation segment is certainly longer than fifty characters.\n=== FILENAME: m.py ===\npass").data)).1),
          FileKind.documentation⟩]
      else []) ++
      (splitDelims (("This explanation segment is certainly longer than fifty characters.\n=== FILENAME: m.py ===\npass").data)).2.map (fun p =>
        ⟨strip p.1, clean_and_validate_code (strip p.2) (("python").data), FileKind.code⟩) ∧
    parse_multi_file_response (("This explanation segment is certainly longer than fifty characters.\n=== FILENAME: m.py ===\npass").data) (("python").data) =
      (if strip (splitDelims (("This explanation segment is certainly longer than fifty characters.\n=== FILENAME: m.py ===\npass").data)).1 ≠ [] then
        [⟨("README.md").data,
          strip (splitDelims (("This explanation segment is certainly longer than fifty characters.\n=== FILENAME: m.py ===\npass").data)).1,
          FileKind.documentation⟩]
      else []) ++
      (splitDelims (("This explanation segment is certainly longer than fifty characters.\n=== FILENAME: m.py ===\npass").data)).2.map (fun p =>
        ⟨strip p.1, clean_code_content (strip p.2), FileKind.code⟩)) :=
  ⟨by decide, doc_record_condition _ _ (by decide)⟩

/-- Python's `max(l, key=len)` on a nonempty list: the result is an
element of maximal length, and the first such element — a later element
replaces the running best only when strictly longer. -/
theorem pickMax_spec (l : List (List Char)) :
    ∀ acc : List Char,
    (pickMax acc l = acc ∧ ∀ x ∈ l, x.length ≤ acc.length) ∨
    (∃ i : Fin l.length, pickMax acc l = l.get i ∧ acc.length < (l.get i).length ∧
      (∀ j : Fin l.length, (l.get j).length ≤ (l.get i).length) ∧
      ∀ j : Fin l.length, j.val < i.val → (l.get j).length < (l.get i).length) := by
  induction l with
  | nil => intro acc; left; exact ⟨rfl, by simp⟩
  | cons x xs ih =>
    intro acc
    rw [pickMax]
    by_cases hx : acc.length < x.length
    · rw [if_pos hx]
      rcases ih x with ⟨h1, h2⟩ | ⟨i, h1, h2, h3, h4⟩
      · right
        refine ⟨⟨0, by simp⟩, by simpa using h1, by simpa using hx, ?_, ?_⟩
        · intro j
          rcases j with ⟨jv, hj⟩
          cases jv with
          | zero => simp
          | succ k =>
            simp only [List.get_cons_succ]
            simpa using h2 _ (List.get_mem _ _ _)
        · intro j hj
          exact absurd hj (by simp)
      · right
        refine ⟨⟨i.val + 1, by simpa using i.isLt⟩, ?_, ?_, ?_, ?_⟩
        · simpa using h1
        · simp only [List.get_cons_succ]
          exact lt_trans hx h2
        · intro j
          rcases j with ⟨jv, hj⟩
          cases jv with
          | zero =>
            simp only [List.get_cons_succ, List.get_cons_zero]
            exact le_of_lt h2
          | succ k =>
            simp only [List.get_cons_succ]
            exact h3 ⟨k, by simpa using hj⟩
        · intro j hj
          rcases j with ⟨jv, hjlt⟩
          cases jv with
          | zero =>
            simp only [List.get_cons_succ, List.get_cons_zero]
            exact h2
          | succ k =>
            simp only [List.get_cons_succ]
            exact h4 ⟨k, by simpa using hjlt⟩ (by simpa using hj)
    · rw [if_neg hx]
      rcases ih acc with ⟨h1, h2⟩ | ⟨i, h1, h2, h3, h4⟩
      · left
        refine ⟨h1, ?_⟩
        intro y hy
        rcases List.mem_cons.mp hy with hy | hy
        · rw [hy]; omega
        · exact h2 y hy
      · right
        refine ⟨⟨i.val + 1, by simpa using i.isLt⟩, ?_, ?_, ?_, ?_⟩
        · simpa using h1
        · simp only [List.get_cons_succ]
          exact h2
        · intro j
          rcases j with ⟨jv, hj⟩
          cases jv with
          | zero =>
            simp only [List.get_cons_succ, List.get_cons_zero]
            exact le_trans (Nat.le_of_not_lt hx) (le_of_lt h2)
          | succ k =>
            simp only [List.get_cons_succ]
            exact h3 ⟨k, by simpa using hj⟩
        · intro j hj
          rcases j with ⟨jv, hjlt⟩
          cases jv with
          | zero =>
            exact lt_of_le_of_lt (Nat.le_of_not_lt hx) h2
          | succ k =>
            simp only [List.get_cons_succ]
            exact h4 ⟨k, by simpa using hjlt⟩ (by simpa using hj)

/-- Claim C6: with at least one fenced block present, the code payload of
`separate_explanation_and_code` is (the stripped content of) a block of
maximal character length, and strictly longer than every block before it
— i.e. the first block wins exact ties. -/
theorem largest_block_chosen (response : List Char)
    (h : findCodeBlocks response ≠ []) :
    ∃ i : Fin (findCodeBlocks response).length,
      (separate_explanation_and_code response).2 =
        strip ((findCodeBlocks response).get i) ∧
      (∀ j : Fin (findCodeBlocks response).length,
        ((findCodeBlocks response).get j).length ≤
          ((findCodeBlocks response).get i).length) ∧
      ∀ j : Fin (findCodeBlocks response).length, j.val < i.val →
        ((findCodeBlocks response).get j).length <
          ((findCodeBlocks response).get i).length := by
  rcases hb : findCodeBlocks response with _ | ⟨b, bs⟩
  · exact absurd hb h
  have hsep : (separate_explanation_and_code response).2 = strip (pickMax b bs) := by
    rw [separate_explanation_and_code, hb]
  rcases pickMax_spec bs b with ⟨h1, h2⟩ | ⟨i, h1, h2, h3, h4⟩
  · refine ⟨⟨0, by simp⟩, ?_, ?_, ?_⟩
    · rw [hsep, h1]
      simp
    · intro j
      rcases j with ⟨jv, hj⟩
      cases jv with
      | zero => simp
      | succ k =>
        simp only [List.get_cons_succ, List.get_cons_zero]
        exact h2 _ (List.get_mem _ _ _)
    · intro j hj
      exact absurd hj (by simp)
  · refine ⟨⟨i.val + 1, by simpa using i.isLt⟩, ?_, ?_, ?_⟩
    · rw [hsep, h1]
      simp
    · intro j
      rcases j with ⟨jv, hj⟩
      cases jv with
      | zero =>
        simp only [List.get_cons_succ, List.get_cons_zero]
        exact le_of_lt h2
      | succ k =>
        simp only [List.get_cons_succ]
        exact h3 ⟨k, by simpa using hj⟩
    · intro j hj
      rcases j with ⟨jv, hjlt⟩
      cases jv with
      | zero =>
        simp only [List.get_cons_succ, List.get_cons_zero]
        exact h2
      | succ k =>
        simp only [List.get_cons_succ]
        exact h4 ⟨k, by simpa using hjlt⟩ (by simpa using hj)

/-- Witness for C6 at a concrete response with two equal-length fenced
blocks: the first one is chosen. -/
theorem largest_block_chosen_witness :
    findCodeBlocks (("```\naaa\n```\nmid\n```\nbbb\n```").data) ≠ [] ∧
    (∃ i : Fin (findCodeBlocks (("```\naaa\n```\nmid\n```\nbbb\n```").data)).length,
      (separate_explanation_and_code (("```\naaa\n```\nmid\n```\nbbb\n```").data)).2 =
        strip ((findCodeBlocks (("```\naaa\n```\nmid\n```\nbbb\n```").data)).get i) ∧
      (∀ j : Fin (findCodeBlocks (("```\naaa\n```\nmid\n```\nbbb\n```").data)).length,
        ((findCodeBlocks (("```\naaa\n```\nmid\n```\nbbb\n```").data)).get j).length ≤
          ((findCodeBlocks (("```\naaa\n```\nmid\n```\nbbb\n```").data)).get i).length) ∧
      ∀ j : Fin (findCodeBlocks (("```\naaa\n```\nmid\n```\nbbb\n```").data)).length,
        j.val < i.val →
        ((findCodeBlocks (("```\naaa\n```\nmid\n```\nbbb\n```").data)).get j).length <
          ((findCodeBlocks (("```\naaa\n```\nmid\n```\nbbb\n```").data)).get i).length) :=
  ⟨by decide, largest_block_chosen _ (by decide)⟩

/-! ## Claim theorems for the structural analyzer (C8, C9) -/

/-- Claim C8: for python sources, a failed syntactic parse (the oracle
returns `none`, modelling `ast.parse` raising `SyntaxError`) only records
the `"Syntax errors present"` flag and leaves the imports, functions and
classes lists empty; `analyze_code_structure` is a total function, so the
degradation never surfaces as an error. -/
theorem parse_failure_soft (pyParse : List Char → Option (List PyNode))
    (longFn : List Char → Bool) (code : List Char)
    (h : pyParse code = none) :
    ("Syntax errors present").data ∈
      (analyze_code_structure pyParse longFn code (("python").data)).complexity_indicators ∧
    (analyze_code_structure pyParse longFn code (("python").data)).imports = [] ∧
    (analyze_code_structure pyParse longFn code (("python").data)).functions = [] ∧
    (analyze_code_structure pyParse longFn code (("python").data)).classes = [] := by
  refine ⟨?_, ?_, ?_, ?_⟩ <;> simp [analyze_code_structure, h]

/-- Witness for C8 with a concrete always-failing parse oracle. -/
theorem parse_failure_soft_witness :
    ("Syntax errors present").data ∈
      (analyze_code_structure (fun _ => none) (fun _ => false) (("def f(:").data)
        (("python").data)).complexity_indicators ∧
    (analyze_code_structure (fun _ => none) (fun _ => false) (("def f(:").data)
        (("python").data)).imports = [] ∧
    (analyze_code_structure (fun _ => none) (fun _ => false) (("def f(:").data)
        (("python").data)).functions = [] ∧
    (analyze_code_structure (fun _ => none) (fun _ => false) (("def f(:").data)
        (("python").data)).classes = [] :=
  parse_failure_soft (fun _ => none) (fun _ => false) (("def f(:").data) rfl

/-- Claim C9: `lines_of_code` is the number of newline-delimited lines of
the source (the empty text has one line), and the large-file flag is
present in the complexity indicators exactly when that number exceeds
500; this holds for every parse oracle, long-function heuristic, source
and language.  Instantiating at sources of exactly 501 and exactly 500
newline-delimited lines gives the flag and its absence respectively. -/
theorem line_count_and_large_flag (pyParse : List Char → Option (List PyNode))
    (longFn : List Char → Bool) (code language : List Char) :
    (analyze_code_structure pyParse longFn code language).lines_of_code =
      (splitNl code).length ∧
    ((("Large file (>500 lines)").data ∈
        (analyze_code_structure pyParse longFn code language).complexity_indicators) ↔
      500 < (splitNl code).length) := by
  refine ⟨rfl, ?_⟩
  by_cases h500 : 500 < (splitNl code).length
  · refine ⟨fun _ => h500, fun _ => ?_⟩
    by_cases hl : language = ("python").data
    · rcases hp : pyParse code with _ | ns <;>
        simp [analyze_code_structure, hl, hp, h500]
    · simp [analyze_code_structure, hl, h500]
  · refine ⟨fun hmem => ?_, fun h => absurd h h500⟩
    exfalso
    by_cases hl : language = ("python").data
    · rcases hp : pyParse code with _ | ns
      · simp only [analyze_code_structure, hl, hp, if_pos rfl, if_neg h500] at hmem
        split_ifs at hmem <;> revert hmem <;> decide
      · simp only [analyze_code_structure, hl, hp, if_pos rfl, if_neg h500] at hmem
        split_ifs at hmem <;> revert hmem <;> simp_all <;> decide
    · simp only [analyze_code_structure, if_neg hl, if_neg h500] at hmem
      split_ifs at hmem <;> revert hmem <;> decide

/-- The 501-line / 500-line instances of C9: `List.replicate 500 '\n'`
has 501 newline-delimited lines, `List.replicate 499 '\n'` has 500. -/
theorem line_count_and_large_flag_boundary :
    (("Large file (>500 lines)").data ∈
        (analyze_code_structure (fun _ => none) (fun _ => false)
          (List.replicate 500 '\n') (("python").data)).complexity_indicators) ∧
    ¬ (("Large file (>500 lines)").data ∈
        (analyze_code_structure (fun _ => none) (fun _ => false)
          (List.replicate 499 '\n') (("python").data)).complexity_indicators) := by
  have h1 := (line_count_and_large_flag (fun _ => none) (fun _ => false)
    (List.replicate 500 '\n') (("python").data)).2
  have h2 := (line_count_and_large_flag (fun _ => none) (fun _ => false)
    (List.replicate 499 '\n') (("python").data)).2
  constructor
  · exact h1.mpr (by decide)
  · intro hmem
    exact absurd (h2.mp hmem) (by decide)

/-! ## Claim theorems for the public operations (C7) -/

/-- The write loop with a never-failing filesystem returns `ok` with one
saved path per record, in order. -/
theorem saveFilesGo_ok (d pj : List Char) :
    ∀ (files : List FileRecord) (w : World),
      (saveFilesGo (fun _ => none) d pj files w).2 =
        Except.ok (files.map (fun fi => savePath d pj fi.filename)) := by
  intro files
  induction files with
  | nil => intro w; rfl
  | cons fi rest ih =>
    intro w
    have hr := ih ((savePath d pj fi.filename, fi.content) :: w)
    rcases hx : saveFilesGo (fun _ => none) d pj rest
        ((savePath d pj fi.filename, fi.content) :: w) with ⟨w', r⟩
    rw [hx] at hr
    simp only at hr
    rw [saveFilesGo]
    simp only [hx, hr, List.map_cons]

/-- Counterexample to claim C7 as stated: with a filesystem on which the
write raises (e.g. a response filename pointing into a non-existent
directory), `save_refactored_files` — which has no exception handler —
propagates the exception (`Except.error`) across its boundary instead of
returning a failure value, and so does `refactor_and_save`, which calls
it after a successful refactor. -/
theorem save_exception_escapes :
    (save_refactored_files (fun _ => some (("Errno 2").data)) (("proj").data)
      [⟨("sub/a.py").data, ("x").data, FileKind.code⟩] []).2 =
      Except.error (("Errno 2").data) ∧
    (refactor_and_save (fun _ => none) (fun _ => false) (fun _ _ _ => [])
      (fun _ => Except.ok (("print(1)").data)) (fun _ => some (("Errno 2").data))
      (("c").data) (("python").data) (("f.py").data) (("proj").data) []).2 =
      Except.error (("Errno 2").data) := by
  constructor
  · rfl
  · rfl

/-- Claim C7 (amended): `refactor_code`, `generate_script` and
`refactor_file` catch every failure of their collaborators and return a
failure result value; `refactor_and_save` and `generate_and_save` return
the failure value of a failed generation without touching the persisted
world (so a failure occurring before any write corrupts no prior state);
and with a non-failing filesystem the save loop returns a success value
listing one path per record.  (Per the counterexample, a failing write
itself escapes as an exception — that part of the original claim is
dropped.) -/
theorem public_boundary_policy :
    (∀ pyParse longFn promptOf (code language filename e : List Char),
      refactor_code pyParse longFn promptOf (fun _ => Except.error e)
          code language filename =
        { success := false, error := some e }) ∧
    (∀ promptFull (prompt language task_type e : List Char),
      generate_script promptFull (fun _ => Except.error e)
          prompt language task_type =
        { success := false, error := some e }) ∧
    (∀ pyParse longFn promptOf genText readF (path : List Char) lang?,
      refactor_file pyParse longFn promptOf genText (fun _ => false) readF
          path lang? =
        { success := false, error := some ((("File not found: ").data) ++ path) }) ∧
    (∀ pyParse longFn promptOf failW (code language filename projName e : List Char)
        (w : World),
      refactor_and_save pyParse longFn promptOf (fun _ => Except.error e) failW
          code language filename projName w =
        (w, Except.ok { success := false, error := some e })) ∧
    (∀ promptFull failW (prompt language task_type projName e : List Char) (w : World),
      generate_and_save promptFull (fun _ => Except.error e) failW
          prompt language task_type projName w =
        (w, Except.ok { success := false, error := some e })) ∧
    (∀ (projName : List Char) (files : List FileRecord) (w : World),
      (save_refactored_files (fun _ => none) projName files w).2 =
        Except.ok (files.map (fun fi =>
          savePath (("refactored_code").data) projName fi.filename))) := by
  refine ⟨?_, ?_, ?_, ?_, ?_, ?_⟩
  · intro pyParse longFn promptOf code language filename e
    rfl
  · intro promptFull prompt language task_type e
    rfl
  · intro pyParse longFn promptOf genText readF path lang?
    rfl
  · intro pyParse longFn promptOf failW code language filename projName e w
    rfl
  · intro promptFull failW prompt language task_type projName e w
    rfl
  · intro projName files w
    exact saveFilesGo_ok _ _ files w

/-! ## Infrastructure for the cleaner claims (C4): infix and strip facts -/

theorem nilPre {α} (l : List α) : [] <+: l := ⟨l, rfl⟩

theorem inf_cons_iff {α} {l : List α} {a : α} {t : List α} :
    l <:+: a :: t ↔ l <+: a :: t ∨ l <:+: t :=
  List.infix_cons_iff

theorem inf_of_pre {α} {l m : List α} (h : l <+: m) : l <:+: m := by
  rcases h with ⟨t, ht⟩
  exact ⟨[], t, by simp [ht]⟩

theorem inf_of_suf {α} {l m : List α} (h : l <:+ m) : l <:+: m := by
  rcases h with ⟨s, hs⟩
  exact ⟨s, [], by simp [hs]⟩

theorem pre_append_cases {α} {t b : List α} :
    ∀ {a : List α}, t <+: (a ++ b) → t <+: a ∨ ∃ t', t = a ++ t' ∧ t' <+: b := by
  intro a
  induction a generalizing t with
  | nil => intro h; exact Or.inr ⟨t, by simp, h⟩
  | cons x a' ih =>
    intro h
    cases t with
    | nil => exact Or.inl (nilPre _)
    | cons y t'' =>
      rw [List.cons_append, List.cons_prefix_cons] at h
      rcases h with ⟨rfl, h2⟩
      rcases ih h2 with h3 | ⟨t', rfl, h4⟩
      · exact Or.inl (List.cons_prefix_cons.mpr ⟨rfl, h3⟩)
      · exact Or.inr ⟨t', by simp, h4⟩

theorem inf_append_cons {α} {t m : List α} {c : α} (htc : c ∉ t) (htn : t ≠ []) :
    ∀ {l : List α}, t <:+: (l ++ c :: m) → t <:+: l ∨ t <:+: m := by
  intro l
  induction l generalizing t with
  | nil =>
    intro h
    rcases inf_cons_iff.mp h with h | h
    · cases t with
      | nil => exact absurd rfl htn
      | cons y t' =>
        rw [List.cons_prefix_cons] at h
        exact absurd (h.1 ▸ List.mem_cons_self y t') htc
    · exact Or.inr h
  | cons x l' ih =>
    intro h
    rw [List.cons_append] at h
    rcases inf_cons_iff.mp h with h | h
    · rcases @pre_append_cases _ _ (c :: m) (x :: l') h with h2 | ⟨t', ht', h3⟩
      · exact Or.inl (inf_of_pre h2)
      · cases t' with
        | nil => exact Or.inl (ht' ▸ (by simp : (x :: l') ++ ([] : List α) <:+: x :: l'))
        | cons y t'' =>
          rw [List.cons_prefix_cons] at h3
          refine absurd ?_ htc
          rw [ht', h3.1]
          exact List.mem_append.mpr (Or.inr (List.mem_cons_self _ _))
    · rcases ih htc htn h with h2 | h2
      · exact Or.inl (inf_cons_iff.mpr (Or.inr h2))
      · exact Or.inr h2

theorem noTriple_join :
    ∀ L : List (List Char), (∀ l ∈ L, ¬ ticks <:+: l) → (∀ l ∈ L, '\n' ∉ l) →
      ¬ ticks <:+: joinNl L := by
  intro L
  induction L with
  | nil =>
    intro _ _ h
    rw [joinNl, List.infix_nil] at h
    exact absurd h (by decide)
  | cons l ls ih =>
    intro h1 h2 h
    cases ls with
    | nil =>
      have hj : joinNl [l] = l := rfl
      rw [hj] at h
      exact absurd h (h1 l (by simp))
    | cons l2 ls2 =>
      have hj : joinNl (l :: l2 :: ls2) = l ++ '\n' :: joinNl (l2 :: ls2) := rfl
      rw [hj] at h
      rcases inf_append_cons (by decide) (by decide) h with h3 | h3
      · exact absurd h3 (h1 l (by simp))
      · exact ih (fun x hx => h1 x (by simp [hx])) (fun x hx => h2 x (by simp [hx])) h3

theorem noTriple_short {l : List Char} (h : l.length < 3) : ¬ ticks <:+: l := by
  intro hinf
  have := hinf.sublist.length_le
  rw [(by decide : ticks.length = 3)] at this
  omega

theorem noTriple_of_inf {t s : List Char} (hs : ¬ ticks <:+: s)
    (h : t <:+: s) : ¬ ticks <:+: t :=
  fun hx => hs (hx.trans h)

/-! ### rstrip / lstrip / strip lemmas -/

theorem rstrip_pre (l : List Char) : rstrip l <+: l := by
  rw [← List.reverse_suffix, rstrip, List.reverse_reverse]
  exact List.dropWhile_suffix pyWs

theorem lstrip_suf (l : List Char) : lstrip l <:+ l :=
  List.dropWhile_suffix pyWs

theorem dropWhile_head_not {α} {p : α → Bool} :
    ∀ {x : List α} {c t}, x.dropWhile p = c :: t → p c = false := by
  intro x
  induction x with
  | nil => intro c t h; simp at h
  | cons a x' ih =>
    intro c t h
    by_cases ha : p a
    · rw [List.dropWhile_cons_of_pos ha] at h
      exact ih h
    · rw [List.dropWhile_cons_of_neg ha] at h
      cases h
      exact Bool.of_not_eq_true ha

theorem dropWhile_idem {α} {p : α → Bool} (x : List α) :
    (x.dropWhile p).dropWhile p = x.dropWhile p := by
  cases hx : x.dropWhile p with
  | nil => rfl
  | cons c t => exact List.dropWhile_cons_of_neg (by simp [dropWhile_head_not hx])

theorem rstrip_idem (l : List Char) : rstrip (rstrip l) = rstrip l := by
  rw [rstrip, rstrip, List.reverse_reverse, dropWhile_idem]

theorem rstrip_eq_nil_iff {l : List Char} : rstrip l = [] ↔ ∀ c ∈ l, pyWs c := by
  rw [rstrip, List.reverse_eq_nil_iff, List.dropWhile_eq_nil_iff]
  constructor
  · intro h c hc
    exact h c (List.mem_reverse.mpr hc)
  · intro h c hc
    exact h c (List.mem_reverse.mp hc)

theorem rstrip_append_nil {a b : List Char} (h : rstrip b = []) :
    rstrip (a ++ b) = rstrip a := by
  have hb : b.reverse.dropWhile pyWs = [] := by
    have := congrArg List.reverse h
    rwa [rstrip, List.reverse_reverse, List.reverse_nil] at this
  rw [rstrip, rstrip, List.reverse_append, List.dropWhile_append, hb]
  simp

theorem rstrip_append_ne {a b : List Char} (h : rstrip b ≠ []) :
    rstrip (a ++ b) = a ++ rstrip b := by
  have hb : b.reverse.dropWhile pyWs ≠ [] := by
    intro hx
    exact h (by rw [rstrip, hx, List.reverse_nil])
  rw [rstrip, List.reverse_append, List.dropWhile_append,
    if_neg (by simpa using hb), List.reverse_append, List.reverse_reverse]
  rfl

theorem rstrip_cons_ne {c : Char} {b : List Char} (h : rstrip b ≠ []) :
    rstrip (c :: b) = c :: rstrip b := by
  have := @rstrip_append_ne [c] _ h
  simpa using this

theorem rstrip_cons_fix {c : Char} {h : List Char}
    (hfix : rstrip (c :: h) = c :: h) (hne : h ≠ []) : rstrip h = h := by
  by_cases hr : rstrip h = []
  · exfalso
    have h1 : rstrip (c :: h) = rstrip [c] := by
      have := @rstrip_append_nil [c] _ hr
      simpa using this
    rw [hfix] at h1
    by_cases hc : pyWs c
    · have : rstrip [c] = [] := rstrip_eq_nil_iff.mpr (by simpa using hc)
      rw [this] at h1
      exact List.cons_ne_nil c h h1
    · have : rstrip [c] = [c] := by
        rw [rstrip]
        simp [List.dropWhile_cons_of_neg hc]
      rw [this] at h1
      injection h1 with _ h2
      exact hne h2
  · have h1 : rstrip (c :: h) = c :: rstrip h := rstrip_cons_ne hr
    rw [hfix] at h1
    injection h1 with _ h2
    exact h2.symm

theorem strip_inf (l : List Char) : strip l <:+: l :=
  (inf_of_suf (lstrip_suf (rstrip l))).trans (inf_of_pre (rstrip_pre l))

theorem strip_idem (l : List Char) : strip (strip l) = strip l := by
  have key : ∀ z : List Char, rstrip z = z → rstrip (lstrip z) = lstrip z := by
    intro z hzz
    cases hlz : lstrip z with
    | nil => rfl
    | cons d t =>
      rcases lstrip_suf z with ⟨pre, hpre⟩
      rw [hlz] at hpre
      by_cases hdt : rstrip (d :: t) = []
      · exfalso
        have h1 : rstrip z = rstrip pre := by
          rw [← hpre]
          exact rstrip_append_nil hdt
        have h2 : (rstrip pre).length ≤ pre.length := (rstrip_pre pre).length_le
        have h3 : z.length = pre.length + (t.length + 1) := by
          rw [← hpre, List.length_append, List.length_cons]
        rw [hzz] at h1
        have h4 := congrArg List.length h1
        omega
      · have h1 : rstrip z = pre ++ rstrip (d :: t) := by
          rw [← hpre]
          exact rstrip_append_ne hdt
        rw [hzz, ← hpre] at h1
        exact (List.append_cancel_left h1).symm
  show lstrip (rstrip (lstrip (rstrip l))) = lstrip (rstrip l)
  rw [key (rstrip l) (rstrip_idem l)]
  exact dropWhile_idem (rstrip l)

theorem strip_eq_nil_iff' {l : List Char} : strip l = [] ↔ ∀ c ∈ l, pyWs c := by
  rw [strip]
  constructor
  · intro h c hc
    have h1 : ∀ c ∈ rstrip l, pyWs c := List.dropWhile_eq_nil_iff.mp h
    have hsplit := List.takeWhile_append_dropWhile pyWs l.reverse
    have hc' : c ∈ l.reverse := List.mem_reverse.mpr hc
    rw [← hsplit] at hc'
    rcases List.mem_append.mp hc' with h2 | h2
    · exact List.mem_takeWhile_imp h2
    · exact h1 c (by rw [rstrip]; exact List.mem_reverse.mpr h2)
  · intro h
    rw [rstrip_eq_nil_iff.mpr h]
    rfl

theorem rstrip_ne_nil_of_strip {l : List Char} (h : strip l ≠ []) : rstrip l ≠ [] := by
  intro hx
  exact h (by rw [strip, hx]; rfl)

theorem strip_rstrip (l : List Char) : strip (rstrip l) = strip l := by
  rw [strip, strip, rstrip_idem]

/-! ### splitNl / joinNl lemmas -/

theorem splitNl_cons_nl (rest : List Char) :
    splitNl ('\n' :: rest) = [] :: splitNl rest := rfl

theorem splitNl_cons' {c : Char} {rest h : List Char} {t : List (List Char)}
    (hc : c ≠ '\n') (hx : splitNl rest = h :: t) :
    splitNl (c :: rest) = (c :: h) :: t := by
  rw [splitNl, if_neg hc, hx]

theorem splitNl_shape : ∀ s : List Char,
    ∃ h t, splitNl s = h :: t ∧ h <+: s ∧ ∀ l ∈ t, l <:+: s := by
  intro s
  induction s with
  | nil => exact ⟨[], [], rfl, nilPre _, by simp⟩
  | cons c rest ih =>
    rcases ih with ⟨h, t, hx, hpre, hinf⟩
    by_cases hc : c = '\n'
    · subst hc
      refine ⟨[], splitNl rest, splitNl_cons_nl rest, nilPre _, ?_⟩
      intro l hl
      rw [hx] at hl
      rcases List.mem_cons.mp hl with rfl | hl
      · exact inf_cons_iff.mpr (Or.inr (inf_of_pre hpre))
      · exact inf_cons_iff.mpr (Or.inr (hinf l hl))
    · refine ⟨c :: h, t, splitNl_cons' hc hx, List.cons_prefix_cons.mpr ⟨rfl, hpre⟩, ?_⟩
      intro l hl
      exact inf_cons_iff.mpr (Or.inr (hinf l hl))

theorem splitNl_ne_nil (s : List Char) : splitNl s ≠ [] := by
  rcases splitNl_shape s with ⟨h, t, hx, -, -⟩
  rw [hx]
  exact List.cons_ne_nil h t

theorem mem_splitNl_inf {s l : List Char} (h : l ∈ splitNl s) : l <:+: s := by
  rcases splitNl_shape s with ⟨h0, t, hx, hpre, hinf⟩
  rw [hx] at h
  rcases List.mem_cons.mp h with rfl | h
  · exact inf_of_pre hpre
  · exact hinf l h

theorem mem_splitNl_no_nl : ∀ (s : List Char) (l : List Char),
    l ∈ splitNl s → '\n' ∉ l := by
  intro s
  induction s with
  | nil =>
    intro l hl
    rw [(rfl : splitNl [] = [[]])] at hl
    rcases List.mem_cons.mp hl with rfl | hl
    · simp
    · simp at hl
  | cons c rest ih =>
    intro l hl
    by_cases hc : c = '\n'
    · subst hc
      rw [splitNl_cons_nl] at hl
      rcases List.mem_cons.mp hl with rfl | hl
      · simp
      · exact ih l hl
    · rcases hsh : splitNl rest with _ | ⟨h, t⟩
      · exact absurd hsh (splitNl_ne_nil rest)
      · rw [splitNl_cons' hc hsh] at hl
        rcases List.mem_cons.mp hl with rfl | hl
        · intro hmem
          rcases List.mem_cons.mp hmem with h1 | h1
          · exact hc h1.symm
          · exact ih h (by rw [hsh]; simp) h1
        · exact ih l (by rw [hsh]; simp [hl])

theorem joinNl_splitNl : ∀ s : List Char, joinNl (splitNl s) = s := by
  intro s
  induction s with
  | nil => rfl
  | cons c rest ih =>
    by_cases hc : c = '\n'
    · subst hc
      rw [splitNl_cons_nl]
      rcases hsh : splitNl rest with _ | ⟨h, t⟩
      · exact absurd hsh (splitNl_ne_nil rest)
      · have hj : joinNl ([] :: h :: t) = [] ++ '\n' :: joinNl (h :: t) := rfl
        rw [hj, List.nil_append, ← hsh, ih]
    · rcases hsh : splitNl rest with _ | ⟨h, t⟩
      · exact absurd hsh (splitNl_ne_nil rest)
      · rw [splitNl_cons' hc hsh]
        cases t with
        | nil =>
          have hj : joinNl [c :: h] = c :: h := rfl
          rw [hj]
          have : joinNl (splitNl rest) = rest := ih
          rw [hsh] at this
          have hh : h = rest := this
          rw [hh]
        | cons t1 t2 =>
          have hj : joinNl ((c :: h) :: t1 :: t2) = (c :: h) ++ '\n' :: joinNl (t1 :: t2) := rfl
          rw [hj]
          have : joinNl (splitNl rest) = rest := ih
          rw [hsh] at this
          have hj2 : joinNl (h :: t1 :: t2) = h ++ '\n' :: joinNl (t1 :: t2) := rfl
          rw [hj2] at this
          rw [List.cons_append, this]

theorem splitNl_no_nl_eq : ∀ {l : List Char}, '\n' ∉ l → splitNl l = [l] := by
  intro l
  induction l with
  | nil => intro _; rfl
  | cons c rest ih =>
    intro h
    have hc : c ≠ '\n' := fun hx => h (hx ▸ List.mem_cons_self c rest)
    have hr : splitNl rest = [rest] := ih (fun hx => h (List.mem_cons_of_mem c hx))
    exact splitNl_cons' hc hr

theorem splitNl_append_cons {r : List Char} :
    ∀ {l : List Char}, '\n' ∉ l → splitNl (l ++ '\n' :: r) = l :: splitNl r := by
  intro l
  induction l with
  | nil => intro _; exact splitNl_cons_nl r
  | cons c l' ih =>
    intro h
    have hc : c ≠ '\n' := fun hx => h (hx ▸ List.mem_cons_self c l')
    have hr := ih (fun hx => h (List.mem_cons_of_mem c hx))
    rw [List.cons_append]
    exact splitNl_cons' hc hr

theorem splitNl_joinNl : ∀ L : List (List Char), L ≠ [] →
    (∀ l ∈ L, '\n' ∉ l) → splitNl (joinNl L) = L := by
  intro L
  induction L with
  | nil => intro h _; exact absurd rfl h
  | cons l ls ih =>
    intro _ hnl
    cases ls with
    | nil => exact splitNl_no_nl_eq (hnl l (by simp))
    | cons l2 ls2 =>
      have hj : joinNl (l :: l2 :: ls2) = l ++ '\n' :: joinNl (l2 :: ls2) := rfl
      rw [hj, splitNl_append_cons (hnl l (by simp)),
        ih (List.cons_ne_nil l2 ls2) (fun x hx => hnl x (by simp [hx]))]

/-! ### removeTicks and fence-scanner lemmas -/

theorem rt_cons_ne {c : Char} (hc : c ≠ tick) :
    ∀ l, removeTicks (c :: l) = c :: removeTicks l := by
  intro l
  match l with
  | [] => rfl
  | [d] => rfl
  | d :: e :: l' =>
    rw [removeTicks, if_neg (show ¬(c = tick ∧ d = tick ∧ e = tick) from fun h => hc h.1)]

theorem rt_cons2 {d : Char} (hd : d ≠ tick) :
    ∀ l, removeTicks (tick :: d :: l) = tick :: removeTicks (d :: l) := by
  intro l
  match l with
  | [] => rfl
  | e :: l' =>
    rw [removeTicks,
      if_neg (show ¬(tick = tick ∧ d = tick ∧ e = tick) from fun h => hd h.2.1)]

theorem rt_ticks (rest : List Char) :
    removeTicks (tick :: tick :: tick :: rest) = removeTicks rest := by
  rw [removeTicks, if_pos ⟨rfl, rfl, rfl⟩]

theorem noTriple_tail {α} {t : List α} {c : α} {l : List α} (h : ¬ t <:+: (c :: l)) :
    ¬ t <:+: l :=
  fun hx => h (inf_cons_iff.mpr (Or.inr hx))

theorem removeTicks_noTriple_n :
    ∀ (n : Nat) (s : List Char), s.length ≤ n → ¬ ticks <:+: removeTicks s := by
  intro n
  induction n with
  | zero =>
    intro s hs
    have : s = [] := List.length_eq_zero.mp (Nat.le_zero.mp hs)
    subst this
    exact noTriple_short (by decide)
  | succ n ih =>
    intro s hs
    match s with
    | [] => exact noTriple_short (by decide)
    | [c] => exact noTriple_short (by simp [removeTicks])
    | [c, d] => exact noTriple_short (by simp [removeTicks])
    | c1 :: c2 :: c3 :: rest =>
      by_cases hall : c1 = tick ∧ c2 = tick ∧ c3 = tick
      · rcases hall with ⟨rfl, rfl, rfl⟩
        rw [rt_ticks]
        exact ih rest (by simp at hs; omega)
      · rw [removeTicks, if_neg hall]
        have hout : ¬ ticks <:+: removeTicks (c2 :: c3 :: rest) :=
          ih (c2 :: c3 :: rest) (by simp at hs ⊢; omega)
        intro hinf
        rcases inf_cons_iff.mp hinf with hp | hi
        · have hp1 := hp
          rw [(by decide : ticks = tick :: tick :: tick :: ([] : List Char))] at hp1
          rw [List.cons_prefix_cons] at hp1
          rcases hp1 with ⟨hc1, hp2⟩
          by_cases hc2 : c2 = tick
          · have hc3 : c3 ≠ tick := fun hx => hall ⟨hc1.symm, hc2, hx⟩
            rw [hc2, rt_cons2 hc3, rt_cons_ne hc3] at hp2
            rw [List.cons_prefix_cons] at hp2
            rcases hp2 with ⟨-, hp3⟩
            rw [List.cons_prefix_cons] at hp3
            exact hc3 hp3.1.symm
          · rw [rt_cons_ne hc2] at hp2
            rw [List.cons_prefix_cons] at hp2
            exact hc2 hp2.1.symm
        · exact hout hi

theorem removeTicks_noTriple (s : List Char) : ¬ ticks <:+: removeTicks s :=
  removeTicks_noTriple_n s.length s (Nat.le_refl _)

theorem removeTicks_id_n :
    ∀ (n : Nat) (s : List Char), s.length ≤ n → ¬ ticks <:+: s →
      removeTicks s = s := by
  intro n
  induction n with
  | zero =>
    intro s hs _
    have : s = [] := List.length_eq_zero.mp (Nat.le_zero.mp hs)
    subst this
    rfl
  | succ n ih =>
    intro s hs hnt
    match s with
    | [] => rfl
    | [c] => rfl
    | [c, d] => rfl
    | c1 :: c2 :: c3 :: rest =>
      have hall : ¬ (c1 = tick ∧ c2 = tick ∧ c3 = tick) := by
        rintro ⟨rfl, rfl, rfl⟩
        exact hnt (inf_of_pre ⟨rest, rfl⟩)
      rw [removeTicks, if_neg hall,
        ih (c2 :: c3 :: rest) (by simp at hs ⊢; omega) (noTriple_tail hnt)]

theorem subFenceOptF_id :
    ∀ (f : Nat) (s : List Char), ¬ ticks <:+: s → subFenceOptF f s = s := by
  intro f
  induction f with
  | zero => intro s _; rfl
  | succ f ih =>
    intro s hnt
    match s with
    | [] => rfl
    | c :: rest =>
      have hnp : ¬ ticks.isPrefixOf (c :: rest) = true := by
        intro hx
        exact hnt (inf_of_pre (by simpa using hx))
      rw [subFenceOptF, if_neg hnp, ih rest (noTriple_tail hnt)]

theorem subFenceNlF_id :
    ∀ (f : Nat) (s : List Char), ¬ ticks <:+: s → subFenceNlF f s = s := by
  intro f
  induction f with
  | zero => intro s _; rfl
  | succ f ih =>
    intro s hnt
    match s with
    | [] => rfl
    | c :: rest =>
      have hnp : ¬ ticks.isPrefixOf (c :: rest) = true := by
        intro hx
        exact hnt (inf_of_pre (by simpa using hx))
      rw [subFenceNlF, if_neg hnp, ih rest (noTriple_tail hnt)]

/-! ### collapseBlank and dropTrailingEmpty lemmas -/

theorem two_le_lead_of_pre {L : List (List Char)}
    (h : [[], []] <+: L) :
    2 ≤ (L.takeWhile (fun l => l.isEmpty)).length := by
  rcases h with ⟨t, ht⟩
  rw [← ht]
  show 2 ≤ (List.takeWhile (fun l => l.isEmpty) ([] :: [] :: t)).length
  rw [List.takeWhile_cons_of_pos (by simp), List.takeWhile_cons_of_pos (by simp)]
  simp

theorem no3_lead {L : List (List Char)} (h : ¬ [[], [], []] <:+: L) :
    (L.takeWhile (fun l => l.isEmpty)).length ≤ 2 := by
  by_contra hgt
  push_neg at hgt
  apply h
  have hsplit := List.takeWhile_append_dropWhile (fun l => l.isEmpty) L
  rcases hT : L.takeWhile (fun l => l.isEmpty) with _ | ⟨t1, T1⟩
  · rw [hT] at hgt; simp at hgt
  rcases T1 with _ | ⟨t2, T2⟩
  · rw [hT] at hgt; simp at hgt
  rcases T2 with _ | ⟨t3, T3⟩
  · rw [hT] at hgt; simp at hgt
  have hmem : ∀ m ∈ L.takeWhile (fun l => l.isEmpty), m = [] := by
    intro m hm
    have := List.mem_takeWhile_imp hm
    simpa [List.isEmpty_iff] using this
  have h1 : t1 = [] := hmem t1 (by rw [hT]; simp)
  have h2 : t2 = [] := hmem t2 (by rw [hT]; simp)
  have h3 : t3 = [] := hmem t3 (by rw [hT]; simp)
  refine inf_of_pre ?_
  have hp1 : [[], [], []] <+: L.takeWhile (fun l => l.isEmpty) := by
    rw [hT, h1, h2, h3]
    exact ⟨T3, rfl⟩
  have hp2 : L.takeWhile (fun l => l.isEmpty) <+: L :=
    ⟨L.dropWhile (fun l => l.isEmpty), hsplit⟩
  exact hp1.trans hp2

theorem collapse_bound : ∀ (ls : List (List Char)) (k : Nat),
    ¬ [[], [], []] <:+: collapseBlank k ls ∧
    ((collapseBlank k ls).takeWhile (fun l => l.isEmpty)).length ≤ 2 - min k 2 := by
  intro ls
  induction ls with
  | nil =>
    intro k
    constructor
    · rw [collapseBlank]
      simp
    · rw [collapseBlank]
      simp
  | cons l ls ih =>
    intro k
    by_cases hb : strip l = []
    · by_cases hk : k + 1 ≤ 2
      · rw [collapseBlank, if_pos hb, if_pos hk]
        rcases ih (k + 1) with ⟨ih1, ih2⟩
        constructor
        · intro hinf
          rcases inf_cons_iff.mp hinf with hp | hi
          · rw [List.cons_prefix_cons] at hp
            have := two_le_lead_of_pre hp.2
            omega
          · exact ih1 hi
        · rw [List.takeWhile_cons_of_pos (by simp), List.length_cons]
          omega
      · rw [collapseBlank, if_pos hb, if_neg hk]
        rcases ih (k + 1) with ⟨ih1, ih2⟩
        refine ⟨ih1, ?_⟩
        omega
    · rw [collapseBlank, if_neg hb]
      rcases ih 0 with ⟨ih1, ih2⟩
      have hrne : rstrip l ≠ [] := rstrip_ne_nil_of_strip hb
      constructor
      · intro hinf
        rcases inf_cons_iff.mp hinf with hp | hi
        · rw [List.cons_prefix_cons] at hp
          exact hrne hp.1.symm
        · exact ih1 hi
      · rw [List.takeWhile_cons_of_neg (by simpa [List.isEmpty_iff] using hrne)]
        simp

theorem collapse_members : ∀ (ls : List (List Char)) (k : Nat) (m : List Char),
    m ∈ collapseBlank k ls → m = [] ∨ ∃ l ∈ ls, m = rstrip l ∧ strip l ≠ [] := by
  intro ls
  induction ls with
  | nil =>
    intro k m hm
    rw [collapseBlank] at hm
    simp at hm
  | cons l ls ih =>
    intro k m hm
    by_cases hb : strip l = []
    · by_cases hk : k + 1 ≤ 2
      · rw [collapseBlank, if_pos hb, if_pos hk] at hm
        rcases List.mem_cons.mp hm with rfl | hm
        · exact Or.inl rfl
        · rcases ih (k + 1) m hm with h | ⟨l0, hl0, he⟩
          · exact Or.inl h
          · exact Or.inr ⟨l0, List.mem_cons_of_mem l hl0, he⟩
      · rw [collapseBlank, if_pos hb, if_neg hk] at hm
        rcases ih (k + 1) m hm with h | ⟨l0, hl0, he⟩
        · exact Or.inl h
        · exact Or.inr ⟨l0, List.mem_cons_of_mem l hl0, he⟩
    · rw [collapseBlank, if_neg hb] at hm
      rcases List.mem_cons.mp hm with rfl | hm
      · exact Or.inr ⟨l, List.mem_cons_self l ls, rfl, hb⟩
      · rcases ih 0 m hm with h | ⟨l0, hl0, he⟩
        · exact Or.inl h
        · exact Or.inr ⟨l0, List.mem_cons_of_mem l hl0, he⟩

theorem collapse_id : ∀ (ls : List (List Char)) (k : Nat), k ≤ 2 →
    (∀ l ∈ ls, l = [] ∨ (rstrip l = l ∧ strip l ≠ [])) →
    ¬ [[], [], []] <:+: ls →
    (ls.takeWhile (fun l => l.isEmpty)).length + min k 2 ≤ 2 →
    collapseBlank k ls = ls := by
  intro ls
  induction ls with
  | nil => intro k _ _ _ _; rw [collapseBlank]
  | cons l ls ih =>
    intro k hk hnorm hno3 hlead
    rcases hnorm l (List.mem_cons_self l ls) with rfl | ⟨hr, hs⟩
    · have hb : strip ([] : List Char) = [] := rfl
      have hlead1 : (ls.takeWhile (fun l => l.isEmpty)).length + 1 + min k 2 ≤ 2 := by
        rw [List.takeWhile_cons_of_pos (by simp), List.length_cons] at hlead
        omega
      have hkk : k + 1 ≤ 2 := by omega
      rw [collapseBlank, if_pos hb, if_pos hkk,
        ih (k + 1) (by omega) (fun x hx => hnorm x (List.mem_cons_of_mem _ hx))
          (noTriple_tail hno3) (by omega)]
    · have hrne : rstrip l ≠ [] := rstrip_ne_nil_of_strip hs
      rw [collapseBlank, if_neg hs, hr,
        ih 0 (by omega) (fun x hx => hnorm x (List.mem_cons_of_mem _ hx))
          (noTriple_tail hno3) (by simpa using no3_lead (noTriple_tail hno3))]

theorem dte_pre (L : List (List Char)) : dropTrailingEmpty L <+: L := by
  rw [← List.reverse_suffix, dropTrailingEmpty, List.reverse_reverse]
  exact List.dropWhile_suffix _

theorem dte_idem (L : List (List Char)) :
    dropTrailingEmpty (dropTrailingEmpty L) = dropTrailingEmpty L := by
  rw [dropTrailingEmpty, dropTrailingEmpty, List.reverse_reverse, dropWhile_idem]

/-! ### Right- and left-stripping the whole text preserves rstripped lines -/

theorem rstrip_join_lines : ∀ (L : List (List Char)),
    (∀ l ∈ L, '\n' ∉ l) → (∀ l ∈ L, rstrip l = l) →
    ∀ m ∈ splitNl (rstrip (joinNl L)), rstrip m = m := by
  intro L
  induction L with
  | nil =>
    intro _ _ m hm
    have h0 : rstrip (joinNl []) = [] := rfl
    rw [h0] at hm
    rcases List.mem_cons.mp hm with rfl | hm
    · rfl
    · simp at hm
  | cons l ls ih =>
    intro hnl hr m hm
    cases ls with
    | nil =>
      have h0 : joinNl [l] = l := rfl
      rw [h0, hr l (by simp), splitNl_no_nl_eq (hnl l (by simp))] at hm
      rcases List.mem_cons.mp hm with rfl | hm
      · exact hr m (by simp)
      · simp at hm
    | cons l2 ls2 =>
      have h0 : joinNl (l :: l2 :: ls2) = l ++ '\n' :: joinNl (l2 :: ls2) := rfl
      rw [h0] at hm
      by_cases hr2 : rstrip (joinNl (l2 :: ls2)) = []
      · have hnil : rstrip ('\n' :: joinNl (l2 :: ls2)) = [] := by
          have := @rstrip_append_nil ['\n'] _ hr2
          simpa using this
        rw [rstrip_append_nil hnil, hr l (by simp),
          splitNl_no_nl_eq (hnl l (by simp))] at hm
        rcases List.mem_cons.mp hm with rfl | hm
        · exact hr m (by simp)
        · simp at hm
      · have hcons : rstrip ('\n' :: joinNl (l2 :: ls2)) =
            '\n' :: rstrip (joinNl (l2 :: ls2)) := rstrip_cons_ne hr2
        rw [rstrip_append_ne (by rw [hcons]; exact List.cons_ne_nil _ _), hcons,
          splitNl_append_cons (hnl l (by simp))] at hm
        rcases List.mem_cons.mp hm with rfl | hm
        · exact hr m (by simp)
        · exact ih (fun x hx => hnl x (List.mem_cons_of_mem l hx))
            (fun x hx => hr x (List.mem_cons_of_mem l hx)) m hm

theorem rstrip_lines {t : List Char} (h : ∀ l ∈ splitNl t, rstrip l = l) :
    ∀ m ∈ splitNl (rstrip t), rstrip m = m := by
  have := rstrip_join_lines (splitNl t)
    (fun l hl => mem_splitNl_no_nl t l hl) h
  rwa [joinNl_splitNl t] at this

theorem lstrip_lines : ∀ (t : List Char),
    (∀ l ∈ splitNl t, rstrip l = l) →
    ∀ m ∈ splitNl (lstrip t), rstrip m = m := by
  intro t
  induction t with
  | nil =>
    intro h m hm
    exact h m hm
  | cons c rest ih =>
    intro h m hm
    by_cases hws : pyWs c
    · by_cases hc : c = '\n'
      · subst hc
        have hl : lstrip ('\n' :: rest) = lstrip rest := by
          rw [lstrip, List.dropWhile_cons_of_pos hws]
          rfl
        rw [hl] at hm
        refine ih ?_ m hm
        intro l hl2
        exact h l (by rw [splitNl_cons_nl]; exact List.mem_cons_of_mem _ hl2)
      · have hl : lstrip (c :: rest) = lstrip rest := by
          rw [lstrip, List.dropWhile_cons_of_pos hws]
          rfl
        rw [hl] at hm
        rcases hsh : splitNl rest with _ | ⟨h0, t0⟩
        · exact absurd hsh (splitNl_ne_nil rest)
        have hch : rstrip (c :: h0) = c :: h0 :=
          h (c :: h0) (by rw [splitNl_cons' hc hsh]; simp)
        have hh0ne : h0 ≠ [] := by
          rintro rfl
          have : rstrip [c] = [] := rstrip_eq_nil_iff.mpr (by simpa using hws)
          rw [this] at hch
          exact List.cons_ne_nil c [] hch.symm
        have hh0 : rstrip h0 = h0 := rstrip_cons_fix hch hh0ne
        refine ih ?_ m hm
        intro l hl2
        rw [hsh] at hl2
        rcases List.mem_cons.mp hl2 with rfl | hl2
        · exact hh0
        · exact h l (by rw [splitNl_cons' hc hsh]; exact List.mem_cons_of_mem _ hl2)
    · have hl : lstrip (c :: rest) = c :: rest := by
        rw [lstrip, List.dropWhile_cons_of_neg hws]
      rw [hl] at hm
      exact h m hm

theorem map_fix {α} (f : α → α) : ∀ l : List α, (∀ x ∈ l, f x = x) → l.map f = l := by
  intro l
  induction l with
  | nil => intro _; rfl
  | cons a l ih =>
    intro h
    rw [List.map_cons, h a (by simp), ih (fun x hx => h x (List.mem_cons_of_mem a hx))]

/-! ### The cleaner fixed-point theorems (C4) -/

theorem cavc_fixes (x lang : List Char) :
    clean_and_validate_code (clean_and_validate_code x lang) lang =
      clean_and_validate_code x lang ∧
    ¬ [[], [], []] <:+: splitNl (clean_and_validate_code x lang) := by
  set w := removeTicks (subFenceOpt x) with hwdef
  set M := collapseBlank 0 (splitNl w) with hMdef
  set L := dropTrailingEmpty M with hLdef
  have hw : ¬ ticks <:+: w := removeTicks_noTriple _
  have hclean : clean_and_validate_code x lang = joinNl L := rfl
  have hLmem : ∀ m ∈ L, m = [] ∨ ∃ l ∈ splitNl w, m = rstrip l ∧ strip l ≠ [] := by
    intro m hm
    exact collapse_members (splitNl w) 0 m ((dte_pre M).sublist.subset hm)
  have hLnl : ∀ m ∈ L, '\n' ∉ m := by
    intro m hm
    rcases hLmem m hm with rfl | ⟨l, hl, rfl, -⟩
    · simp
    · intro hx
      exact mem_splitNl_no_nl w l hl ((rstrip_pre l).sublist.subset hx)
  have hLnt : ∀ m ∈ L, ¬ ticks <:+: m := by
    intro m hm
    rcases hLmem m hm with rfl | ⟨l, hl, rfl, -⟩
    · exact noTriple_short (by decide)
    · exact noTriple_of_inf (noTriple_of_inf hw (mem_splitNl_inf hl))
        (inf_of_pre (rstrip_pre l))
  have hLnorm : ∀ m ∈ L, m = [] ∨ (rstrip m = m ∧ strip m ≠ []) := by
    intro m hm
    rcases hLmem m hm with rfl | ⟨l, hl, rfl, hs⟩
    · exact Or.inl rfl
    · exact Or.inr ⟨rstrip_idem l, by rw [strip_rstrip]; exact hs⟩
  have hLno3 : ¬ [[], [], []] <:+: L := by
    intro hx
    exact (collapse_bound (splitNl w) 0).1 (hx.trans (inf_of_pre (dte_pre M)))
  have hynt : ¬ ticks <:+: joinNl L := noTriple_join L hLnt hLnl
  by_cases hLe : L = []
  · constructor
    · rw [hclean, hLe]
      rfl
    · rw [hclean, hLe]
      decide
  · have h1 : subFenceOpt (joinNl L) = joinNl L := by
      rw [subFenceOpt]
      exact subFenceOptF_id _ _ hynt
    have h2 : removeTicks (joinNl L) = joinNl L :=
      removeTicks_id_n (joinNl L).length _ (Nat.le_refl _) hynt
    have h3 : splitNl (joinNl L) = L := splitNl_joinNl L hLe hLnl
    have h4 : collapseBlank 0 L = L :=
      collapse_id L 0 (by omega) hLnorm hLno3 (by simpa using no3_lead hLno3)
    have h5 : dropTrailingEmpty L = L := by
      rw [hLdef]
      exact dte_idem M
    constructor
    · rw [hclean]
      show joinNl (dropTrailingEmpty (collapseBlank 0
        (splitNl (removeTicks (subFenceOpt (joinNl L)))))) = joinNl L
      rw [h1, h2, h3, h4, h5]
    · rw [hclean, h3]
      exact hLno3

theorem ccc_idem (x : List Char) :
    clean_code_content (clean_code_content x) = clean_code_content x := by
  set w := removeTicks (subFenceNl x) with hwdef
  set M := (splitNl w).map rstrip with hMdef
  have hw : ¬ ticks <:+: w := removeTicks_noTriple _
  have hMnl : ∀ m ∈ M, '\n' ∉ m := by
    intro m hm
    rcases List.mem_map.mp hm with ⟨l, hl, rfl⟩
    intro hx
    exact mem_splitNl_no_nl w l hl ((rstrip_pre l).sublist.subset hx)
  have hMnt : ∀ m ∈ M, ¬ ticks <:+: m := by
    intro m hm
    rcases List.mem_map.mp hm with ⟨l, hl, rfl⟩
    exact noTriple_of_inf (noTriple_of_inf hw (mem_splitNl_inf hl))
      (inf_of_pre (rstrip_pre l))
  have hMne : M ≠ [] := by
    rw [hMdef]
    intro hx
    exact splitNl_ne_nil w (List.map_eq_nil_iff.mp hx)
  have hclean : clean_code_content x = strip (joinNl M) := rfl
  have hJl : splitNl (joinNl M) = M := splitNl_joinNl M hMne hMnl
  have hJr : ∀ m ∈ splitNl (joinNl M), rstrip m = m := by
    rw [hJl]
    intro m hm
    rcases List.mem_map.mp hm with ⟨l, hl, rfl⟩
    exact rstrip_idem l
  have hJnt : ¬ ticks <:+: joinNl M := noTriple_join M hMnt hMnl
  have hynt : ¬ ticks <:+: strip (joinNl M) := noTriple_of_inf hJnt (strip_inf _)
  set y := strip (joinNl M) with hydef
  have hyr : ∀ m ∈ splitNl y, rstrip m = m :=
    lstrip_lines (rstrip (joinNl M)) (rstrip_lines hJr)
  have h1 : subFenceNl y = y := by
    rw [subFenceNl]
    exact subFenceNlF_id _ _ hynt
  have h2 : removeTicks y = y :=
    removeTicks_id_n y.length _ (Nat.le_refl _) hynt
  rw [hclean]
  show strip (joinNl ((splitNl (removeTicks (subFenceNl y))).map rstrip)) = y
  rw [h1, h2, map_fix rstrip (splitNl y) hyr, joinNl_splitNl]
  rw [hydef]
  exact strip_idem _

/-- Counterexample to claim C4 as stated: `clean_code_content` (the
generation-mode cleaner) does not collapse blank-line runs at all — on
`"a\n\n\n\nb"` it returns the text unchanged, whose lines contain a run
of three consecutive blank lines. -/
theorem gen_cleaner_keeps_blank_run :
    clean_code_content (("a\n\n\n\nb").data) = ("a\n\n\n\nb").data ∧
    [[], [], []] <:+: splitNl (clean_code_content (("a\n\n\n\nb").data)) := by
  decide

/-- Claim C4 (amended): both cleaners are idempotent, and the output of
`clean_and_validate_code` (the refactor-mode cleaner) never contains a
run of more than 2 consecutive blank lines; `clean_code_content` offers
no such bound (see the counterexample). -/
theorem cleaners_idempotent (x language : List Char) :
    clean_and_validate_code (clean_and_validate_code x language) language =
      clean_and_validate_code x language ∧
    clean_code_content (clean_code_content x) = clean_code_content x ∧
    ¬ [[], [], []] <:+: splitNl (clean_and_validate_code x language) :=
  ⟨(cavc_fixes x language).1, ccc_idem x, (cavc_fixes x language).2⟩

end Recorder
